import Mathlib

/-!
Shallow embedding of the nncase memory scheduler (src/schedule/scheduler.cpp,
present in the source pack) together with the helper entities it uses from
headers that are not part of the pack (scheduler.h, visitor.h, op_utils.h);
those helpers are modelled from the specification and marked as such.
-/

namespace NncaseSchedule

/-- Memory location tags used by the scheduler. -/
inductive MemLoc where
  | mem_input
  | mem_output
  | mem_rdata
  | mem_data
  deriving DecidableEq, Repr

/-- Runtime opcodes the scheduler dispatches on; every other opcode behaves
like `other`. -/
inductive Opcode where
  | input_node
  | output_node
  | constant
  | bitcast
  | concat
  | slice
  | other
  deriving DecidableEq, Repr

/-- Element datatype, abstracted to its byte width. -/
structure DType where
  bytes : Nat
  deriving DecidableEq, Repr

abbrev Shape := List Nat
abbrev NodeId := Nat

/-- Reference to an output connector: producing node id and output port. -/
structure OutRef where
  node : NodeId
  port : Nat
  deriving DecidableEq, Repr

/-- Static data of one graph node: opcode, the initial `node_attr_action`
bit, input connections (in declaration order), shapes and types of its
output connectors, and the concat axis (meaningful for concat nodes). -/
structure NodeData where
  opcode : Opcode
  action : Bool
  inputs : List OutRef
  outShapes : List Shape
  outTypes : List DType
  axis : Nat
  deriving DecidableEq, Repr

instance : Inhabited NodeData := ⟨⟨Opcode.other, false, [], [], [], 0⟩⟩

/-- A dataflow graph: nodes indexed by position, and the terminal output
nodes that root the traversals. -/
structure Graph where
  nodes : List NodeData
  outputs : List NodeId
  deriving Repr

def Graph.node (g : Graph) (n : NodeId) : NodeData := g.nodes.getD n default

def Graph.outShape (g : Graph) (r : OutRef) : Shape :=
  (g.node r.node).outShapes.getD r.port []

def Graph.outType (g : Graph) (r : OutRef) : DType :=
  (g.node r.node).outTypes.getD r.port ⟨1⟩

/-- Producing nodes of the node's input connections. -/
def Graph.prods (g : Graph) (n : NodeId) : List NodeId :=
  (g.node n).inputs.map OutRef.node

/-- Consumers (`connections()`) of an output connector: every input
connector of the graph referencing it, in declaration order. -/
def Graph.consumers (g : Graph) (r : OutRef) : List (NodeId × Nat) :=
  (List.range g.nodes.length).flatMap (fun n =>
    ((g.node n).inputs.enum.filterMap (fun p =>
      if p.2 = r then some (n, p.1) else none)))

abbrev DfsState := List NodeId × List NodeId

/-- Modelled from the spec: `make_relay_ir_visitor` (nncase/ir/visitor.h, not
under src/) performs a post-order depth-first traversal rooted at the graph
outputs, visiting each node exactly once; the callback fires on a node after
all producers of its inputs were traversed.  The state is the pair
(visited set, emission order); fuel bounds the recursion depth. -/
def dfsAux (g : Graph) : Nat → NodeId → DfsState → DfsState
  | 0, _, st => st
  | Nat.succ fuel, n, st =>
    if n ∈ st.1 then st
    else
      let st1 := (g.prods n).foldl (fun s m => dfsAux g fuel m s) (n :: st.1, st.2)
      (st1.1, st1.2 ++ [n])

/-- Traversal of a list of roots, threading the DFS state. -/
def dfsList (g : Graph) (fuel : Nat) (l : List NodeId) (st : DfsState) : DfsState :=
  l.foldl (fun s m => dfsAux g fuel m s) st

/-- Order in which the relay IR visitor fires its callback. -/
def visitOrder (g : Graph) : List NodeId :=
  (dfsList g (g.nodes.length + 1) g.outputs ([], [])).2

/-- Modelled from the spec: the `lifetime` record of schedule/scheduler.h
(not under src/): birth age, elapsed age and remaining consumer count. -/
structure Lifetime where
  birth : Nat
  age : Nat
  used_count : Nat
  deriving DecidableEq, Repr

/-- Modelled from the spec: `is_alive` iff `used_count` is positive. -/
def Lifetime.is_alive (l : Lifetime) : Bool := decide (0 < l.used_count)

/-- Modelled from the spec: `end = birth + age`. -/
def Lifetime.lifeEnd (l : Lifetime) : Nat := l.birth + l.age

/-- Parent descriptor: target buffer (identified by its owning connector)
and the begin coordinate inside the target. -/
structure ParentDesc where
  parent : OutRef
  start : List Nat
  deriving DecidableEq, Repr

/-- Modelled from the spec: `logical_buffer` of schedule/scheduler.h (not
under src/). -/
structure LogicalBuffer where
  id : Nat
  owner : OutRef
  memory_location : MemLoc
  lifetime : Lifetime
  parent : Option ParentDesc
  deriving DecidableEq, Repr

/-- The scheduler's `logical_buffers_` map, canonicalised to an association
list in insertion (= buffer id) order. -/
abbrev Buffers := List (OutRef × LogicalBuffer)

def bufFind : Buffers → OutRef → Option LogicalBuffer
  | [], _ => none
  | p :: rest, r => if p.1 = r then some p.2 else bufFind rest r

def bufUpdate (bs : Buffers) (r : OutRef) (f : LogicalBuffer → LogicalBuffer) : Buffers :=
  bs.map (fun p => if p.1 = r then (p.1, f p.2) else p)

/-- decide_memory_location of scheduler.cpp. -/
def decide_memory_location (g : Graph) (r : OutRef) : MemLoc :=
  if (g.node r.node).opcode = Opcode.input_node then MemLoc.mem_input
  else if (g.node r.node).opcode = Opcode.constant then MemLoc.mem_rdata
  else if (g.consumers r).any (fun c => (g.node c.1).opcode = Opcode.output_node) then
    MemLoc.mem_output
  else MemLoc.mem_data

/-- State of `lifetime_recorder`. -/
structure RecState where
  buffers : Buffers
  next_buffer_id : Nat
  cnt_age : Nat
  deriving Repr

/-- lifetime_recorder::allocate. -/
def lr_allocate (g : Graph) (st : RecState) (r : OutRef) : RecState :=
  match bufFind st.buffers r with
  | some _ => st
  | none =>
    let b : LogicalBuffer :=
      { id := st.next_buffer_id
        owner := r
        memory_location := decide_memory_location g r
        lifetime := { birth := st.cnt_age, age := 0, used_count := (g.consumers r).length }
        parent := none }
    { buffers := st.buffers ++ [(r, b)]
      next_buffer_id := st.next_buffer_id + 1
      cnt_age := st.cnt_age }

/-- lifetime_recorder::release; a released (dead) buffer raises the fatal
error of scheduler.cpp. -/
def lr_release (bs : Buffers) (r : OutRef) : Except String Buffers :=
  match bufFind bs r with
  | none => Except.ok bs
  | some b =>
    if b.lifetime.is_alive then
      Except.ok (bufUpdate bs r (fun b =>
        { b with lifetime := { b.lifetime with used_count := b.lifetime.used_count - 1 } }))
    else
      Except.error "Trying to free a released buffer"

/-- lifetime_recorder::grow_age. -/
def lr_grow_age (st : RecState) : RecState :=
  { st with
    cnt_age := st.cnt_age + 1
    buffers := st.buffers.map (fun p =>
      if p.2.lifetime.is_alive then
        (p.1, { p.2 with lifetime := { p.2.lifetime with age := p.2.lifetime.age + 1 } })
      else p) }

/-- One visitor callback of scheduler::make_logical_buffers: allocate every
output, advance the clock, release every input connection. -/
def make_logical_buffers_step (g : Graph) (st : RecState) (n : NodeId) :
    Except String RecState := do
  let st := (List.range (g.node n).outShapes.length).foldl
    (fun s port => lr_allocate g s ⟨n, port⟩) st
  let st := lr_grow_age st
  let bufs ← (g.node n).inputs.foldlM (fun bs inref => lr_release bs inref) st.buffers
  pure { st with buffers := bufs }

/-- scheduler::make_logical_buffers. -/
def make_logical_buffers (g : Graph) : Except String Buffers := do
  let st ← (visitOrder g).foldlM (make_logical_buffers_step g)
    { buffers := [], next_buffer_id := 0, cnt_age := 0 }
  pure st.buffers

/-- State of scheduler::analyze_buffer_alias: the buffer map plus the set of
nodes whose `node_attr_action` bit the pass has cleared. -/
structure AliasState where
  buffers : Buffers
  cleared : List NodeId
  deriving Repr

/-- Effective `node_attr_action` bit of a node: the initial bit, minus any
clearing recorded by the alias passes. -/
def effAction (g : Graph) (cleared : List NodeId) (n : NodeId) : Bool :=
  (g.node n).action && !(cleared.contains n)

def clearNode (cleared : List NodeId) (n : NodeId) : List NodeId :=
  if n ∈ cleared then cleared else n :: cleared

/-- The bitcast branch of scheduler::analyze_buffer_alias. -/
def bitcast_step (g : Graph) (st : AliasState) (n : NodeId) : AliasState :=
  match (g.node n).inputs with
  | [] => st
  | inref :: _ =>
    let outref : OutRef := ⟨n, 0⟩
    match bufFind st.buffers inref, bufFind st.buffers outref with
    | some inb, some outb =>
      let bufs1 :=
        if outb.memory_location = MemLoc.mem_output ∧ inb.memory_location = MemLoc.mem_data then
          bufUpdate st.buffers inref (fun b => { b with memory_location := MemLoc.mem_output })
        else st.buffers
      let inLoc :=
        match bufFind bufs1 inref with
        | some b => b.memory_location
        | none => inb.memory_location
      if outb.memory_location = MemLoc.mem_output ∧
          (inLoc = MemLoc.mem_input ∨ inLoc = MemLoc.mem_rdata) then
        { st with buffers := bufs1 }
      else
        { buffers := bufUpdate bufs1 outref (fun b =>
            { b with parent := some ⟨inref, List.replicate (g.outShape inref).length 0⟩ })
          cleared := clearNode st.cleared n }
    | _, _ => st

/-- One conjunct of the concat rule: the input's buffer is tagged neither
`input` nor `rdata`, and its producer is not a slice node. -/
def concatLocOk (g : Graph) (bs : Buffers) (inref : OutRef) : Bool :=
  match bufFind bs inref with
  | some b =>
    decide (b.memory_location ≠ MemLoc.mem_input) &&
    decide (b.memory_location ≠ MemLoc.mem_rdata) &&
    decide ((g.node inref.node).opcode ≠ Opcode.slice)
  | none => false

/-- The demotion condition of the concat branch of
scheduler::analyze_buffer_alias: the axis test on the first input's shape,
the tag and slice test on every input, and the bound on concat consumers. -/
def concatCond (g : Graph) (bs : Buffers) (n : NodeId) : Bool :=
  match (g.node n).inputs with
  | [] => false
  | in0 :: _ =>
    (decide ((g.node n).axis = 0) ||
      ((g.outShape in0).take (g.node n).axis).all (fun d => decide (d = 1))) &&
    ((g.node n).inputs.all (fun inref => concatLocOk g bs inref)) &&
    decide
      (((g.consumers ⟨n, 0⟩).countP (fun c => decide ((g.node c.1).opcode = Opcode.concat))) < 2)

/-- The concat branch of scheduler::analyze_buffer_alias. -/
def concat_step (g : Graph) (st : AliasState) (n : NodeId) : AliasState :=
  if concatCond g st.buffers n then { st with cleared := clearNode st.cleared n } else st

/-- One visitor callback of scheduler::analyze_buffer_alias. -/
def alias_step (g : Graph) (st : AliasState) (n : NodeId) : AliasState :=
  if (g.node n).opcode = Opcode.bitcast then bitcast_step g st n
  else if (g.node n).opcode = Opcode.concat then concat_step g st n
  else st

/-- scheduler::analyze_buffer_alias. -/
def analyze_buffer_alias (g : Graph) (bufs : Buffers) : AliasState :=
  (visitOrder g).foldl (alias_step g) { buffers := bufs, cleared := [] }

/-- Modelled from the spec: `try_get_direct_child` of nncase/ir (not under
src/): the consumer of the concat output when there is exactly one and it
is a concat node. -/
def try_get_concat_child (g : Graph) (n : NodeId) : Option NodeId :=
  match g.consumers ⟨n, 0⟩ with
  | [c] => if (g.node c.1).opcode = Opcode.concat then some c.1 else none
  | _ => none

/-- Modelled from the spec: `get_input_index` (not under src/): the index of
the given output connector among the node's inputs. -/
def get_input_index (g : Graph) (p : NodeId) (r : OutRef) : Nat :=
  (g.node p).inputs.findIdx (fun x => decide (x = r))

/-- Modelled from the spec: `concat_dims()` of the concat node (not under
src/): the extents of its inputs along the concat axis. -/
def concat_dims (g : Graph) (n : NodeId) : List Nat :=
  (g.node n).inputs.map (fun r => (g.outShape r).getD (g.node n).axis 0)

def vecAdd (a b : List Nat) : List Nat := List.zipWith (· + ·) a b

/-- The index-initialisation step of scheduler::fix_concat_indices: assign
each input of the demoted concat the running offset inside the concat
output along the axis. -/
def concat_init (g : Graph) (n : NodeId) (bufs : Buffers) : Buffers :=
  match (g.node n).inputs with
  | [] => bufs
  | in0 :: _ =>
    let rank := (g.outShape in0).length
    ((g.node n).inputs.foldl (fun (acc : Buffers × List Nat) inref =>
        (bufUpdate acc.1 inref (fun b => { b with parent := some ⟨⟨n, 0⟩, acc.2⟩ }),
         acc.2.set (g.node n).axis
           ((acc.2.getD (g.node n).axis 0) + ((g.outShape inref).getD (g.node n).axis 0))))
      (bufs, List.replicate rank 0)).1

/-- One iteration of the upward chain walk of scheduler::fix_concat_indices:
re-point the child's output buffer at the parent concat and shift the begin
of every input of the originally visited concat `c`. -/
def concat_chain_step (g : Graph) (c : NodeId) (child : NodeId) (bufs : Buffers)
    (p : NodeId) : Buffers :=
  let index := get_input_index g p ⟨child, 0⟩
  let axisP := (g.node p).axis
  let rankC := (g.outShape ⟨child, 0⟩).length
  let child_begin := (List.replicate rankC 0).set axisP (((concat_dims g p).take index).sum)
  let bufs1 := bufUpdate bufs ⟨child, 0⟩ (fun b =>
    { b with parent := some ⟨⟨p, 0⟩, child_begin⟩ })
  (g.node c).inputs.foldl (fun bs inref =>
      bufUpdate bs inref (fun b =>
        match b.parent with
        | some d => { b with parent := some ⟨⟨p, 0⟩, vecAdd d.start child_begin⟩ }
        | none => b))
    bufs1

/-- The upward while loop of scheduler::fix_concat_indices. -/
def concat_chain_loop (g : Graph) (cleared : List NodeId) (c : NodeId) :
    Nat → NodeId → Buffers → Buffers
  | 0, _, bufs => bufs
  | Nat.succ fuel, child, bufs =>
    match try_get_concat_child g child with
    | none => bufs
    | some p =>
      if effAction g cleared p then bufs
      else concat_chain_loop g cleared c fuel p (concat_chain_step g c child bufs p)

/-- One visitor callback of scheduler::fix_concat_indices. -/
def fix_concat_step (g : Graph) (cleared : List NodeId) (bufs : Buffers) (n : NodeId) :
    Buffers :=
  if (g.node n).opcode = Opcode.concat ∧ effAction g cleared n = false then
    concat_chain_loop g cleared n (g.nodes.length + 1) n (concat_init g n bufs)
  else bufs

/-- scheduler::fix_concat_indices. -/
def fix_concat_indices (g : Graph) (st : AliasState) : Buffers :=
  (visitOrder g).foldl (fix_concat_step g st.cleared) st.buffers

/-- The while loop of the parent-assignment phase of scheduler::fix_lifetime:
`while (p->parent->parent()) p = p->parent->parent();`. -/
def chase_parent (bs : Buffers) : Nat → ParentDesc → ParentDesc
  | 0, p => p
  | Nat.succ fuel, p =>
    match bufFind bs p.parent with
    | some pb =>
      match pb.parent with
      | some q => chase_parent bs fuel q
      | none => p
    | none => p

/-- One step of the parent-assignment loop of scheduler::fix_lifetime. -/
def flatten_step (bs : Buffers) (r : OutRef) : Buffers :=
  match bufFind bs r with
  | some b =>
    match b.parent with
    | some p => bufUpdate bs r (fun bb => { bb with parent := some (chase_parent bs bs.length p) })
    | none => bs
  | none => bs

/-- The parent-assignment phase of scheduler::fix_lifetime, iterating the
buffer map in its canonical (insertion) order. -/
def fix_lifetime_flatten (bs : Buffers) : Buffers :=
  (bs.map Prod.fst).foldl flatten_step bs

/-- One step of the lifetime-extension loop of scheduler::fix_lifetime. -/
def extend_step (bs : Buffers) (r : OutRef) : Buffers :=
  match bufFind bs r with
  | some b =>
    match b.parent with
    | some p =>
      match bufFind bs p.parent with
      | some pb =>
        let birth := min b.lifetime.birth pb.lifetime.birth
        let e := max b.lifetime.lifeEnd pb.lifetime.lifeEnd
        bufUpdate bs p.parent (fun q =>
          { q with lifetime := { q.lifetime with birth := birth, age := e - birth } })
      | none => bs
    | none => bs
  | none => bs

/-- scheduler::fix_lifetime. -/
def fix_lifetime (bs : Buffers) : Buffers :=
  let f := fix_lifetime_flatten bs
  (f.map Prod.fst).foldl extend_step f

/-- scheduler::generate_compute_sequence: the visited nodes whose action
bit is still set. -/
def generate_compute_sequence (g : Graph) (cleared : List NodeId) : List NodeId :=
  (visitOrder g).filter (fun n => effAction g cleared n)

/-- Modelled from the spec: `physical_buffer` of schedule/scheduler.h (not
under src/), reduced to its id and owning (root) logical buffer. -/
structure PhysicalBuffer where
  id : Nat
  owner : OutRef
  deriving DecidableEq, Repr

/-- Keys of the parentless (alias root) buffers, in map order. -/
def parentless_keys (bs : Buffers) : List OutRef :=
  (bs.filter (fun p => decide (p.2.parent = none))).map Prod.fst

/-- scheduler::make_physical_buffers, first loop: one fresh physical buffer
per parentless logical buffer, ids assigned monotonically from zero. -/
def make_physical_buffers (bs : Buffers) : List PhysicalBuffer :=
  (parentless_keys bs).enum.map (fun p => ⟨p.1, p.2⟩)

/-- The root a logical buffer's `physical` pointer is bound to by the second
loop of scheduler::make_physical_buffers: the parent's target if the buffer
has a parent, else the buffer itself. -/
def root_of (bs : Buffers) (r : OutRef) : OutRef :=
  match bufFind bs r with
  | some b =>
    match b.parent with
    | some p => p.parent
    | none => r
  | none => r

/-- First index of a key in a key list. -/
def idxOfKey : List OutRef → OutRef → Option Nat
  | [], _ => none
  | x :: xs, k => if x = k then some 0 else (idxOfKey xs k).map (· + 1)

/-- The physical buffer id a logical buffer is bound to. -/
def physical_id_of (bs : Buffers) (r : OutRef) : Option Nat :=
  idxOfKey (parentless_keys bs) (root_of bs r)

/-- The `buffer_allocation` record of schedule/scheduler.h. -/
structure BufferAllocation where
  memory_location : MemLoc
  type : DType
  size : Nat
  shape : Shape
  parent_shape : Shape
  strides : List Nat
  start : Nat
  deriving DecidableEq, Repr

/-- Modelled from the spec: ir::get_bytes of a datatype (not under src/). -/
def get_bytes (t : DType) : Nat := t.bytes

def shape_size (s : Shape) : Nat := s.foldl (· * ·) 1

/-- Modelled from the spec: ir::get_bytes(type, shape) =
element_bytes(type) * product(shape) (not under src/). -/
def get_bytes_shape (t : DType) (s : Shape) : Nat := get_bytes t * shape_size s

/-- Modelled from the spec: to_strides of scheduler.cpp computes the
row-major strides of a shape via xt::compute_strides (third-party). -/
def to_strides : Shape → List Nat
  | [] => []
  | _ :: rest => shape_size rest :: to_strides rest

/-- Modelled from the spec: xt::element_offset, the inner product of the
strides with a coordinate vector (third-party). -/
def element_offset (strides coords : List Nat) : Nat :=
  (List.zipWith (· * ·) strides coords).sum

/-- The buffer_allocation record scheduler::assign_allocations materialises
for one output connector, given the start offset of each physical buffer. -/
def mkAlloc (g : Graph) (bs : Buffers) (physStart : Nat → Nat) (out : OutRef)
    (lbuf : LogicalBuffer) : BufferAllocation :=
  let rootRef := root_of bs out
  let ownerLoc :=
    match bufFind bs rootRef with
    | some ob => ob.memory_location
    | none => lbuf.memory_location
  let pshape :=
    if lbuf.parent.isSome ∧ (g.node out.node).opcode ≠ Opcode.bitcast then g.outShape rootRef
    else g.outShape out
  let strides := to_strides pshape
  let memStart := physStart ((physical_id_of bs out).getD 0)
  let startv :=
    match lbuf.parent with
    | some p => memStart + get_bytes (g.outType out) * element_offset strides p.start
    | none => memStart
  { memory_location := ownerLoc
    type := g.outType out
    size := get_bytes_shape (g.outType out) (g.outShape out)
    shape := g.outShape out
    parent_shape := pshape
    strides := strides
    start := startv }

/-- scheduler::assign_allocations. -/
def assign_allocations (g : Graph) (bs : Buffers) (physStart : Nat → Nat) :
    List (OutRef × BufferAllocation) :=
  (visitOrder g).flatMap (fun n =>
    (List.range (g.node n).outShapes.length).filterMap (fun port =>
      match bufFind bs ⟨n, port⟩ with
      | some lbuf => some (⟨n, port⟩, mkAlloc g bs physStart ⟨n, port⟩ lbuf)
      | none => none))

/-- An allocator bank provided by the target: per memory location, maps the
ordered list of (size, birth, end) requests to per-request start offsets and
the region's max usage.  The bank is external to the scheduler. -/
abbrev Bank := MemLoc → List (Nat × Nat × Nat) → (List Nat × Nat)

def insertSorted (x : OutRef × LogicalBuffer) :
    List (OutRef × LogicalBuffer) → List (OutRef × LogicalBuffer)
  | [] => [x]
  | y :: ys =>
    if x.2.lifetime.birth < y.2.lifetime.birth then x :: y :: ys else y :: insertSorted x ys

/-- The sort by ascending lifetime birth of
scheduler::allocate_physical_buffers, canonicalised to a stable sort. -/
def sort_by_birth : List (OutRef × LogicalBuffer) → List (OutRef × LogicalBuffer)
  | [] => []
  | x :: xs => insertSorted x (sort_by_birth xs)

structure RegionAlloc where
  loc : MemLoc
  keys : List OutRef
  starts : List Nat
  musage : Nat
  deriving Repr

def allLocations : List MemLoc :=
  [MemLoc.mem_input, MemLoc.mem_output, MemLoc.mem_rdata, MemLoc.mem_data]

/-- scheduler::allocate_physical_buffers: feed the root buffers, sorted by
birth, to the allocator of their region; collect starts and max usage. -/
def alloc_regions (g : Graph) (bs : Buffers) (bank : Bank) : List RegionAlloc :=
  let roots := bs.filter (fun p => decide (p.2.parent = none))
  let sorted := sort_by_birth roots
  allLocations.map (fun loc =>
    let mine := sorted.filter (fun p => decide (p.2.memory_location = loc))
    let reqs := mine.map (fun p =>
      (get_bytes_shape (g.outType p.1) (g.outShape p.1), p.2.lifetime.birth, p.2.lifetime.lifeEnd))
    let res := bank loc reqs
    { loc := loc, keys := mine.map Prod.fst, starts := res.1, musage := res.2 })

def startOfRoot (regions : List RegionAlloc) (r : OutRef) : Nat :=
  match regions.findSome? (fun reg =>
    (reg.keys.zip reg.starts).findSome? (fun p => if p.1 = r then some p.2 else none)) with
  | some s => s
  | none => 0

/-- The schedule artifact. -/
structure ScheduleResult where
  compute_sequence : List NodeId
  allocations : List (OutRef × BufferAllocation)
  max_usages : List (MemLoc × Nat)
  deriving Repr

/-- scheduler::schedule: the full pipeline. -/
def schedule (g : Graph) (bank : Bank) : Except String ScheduleResult := do
  let bufs ← make_logical_buffers g
  let st := analyze_buffer_alias g bufs
  let bufs2 := fix_concat_indices g st
  let bufs3 := fix_lifetime bufs2
  let seq := generate_compute_sequence g st.cleared
  let regions := alloc_regions g bufs3 bank
  let physStart := fun physId => startOfRoot regions ((parentless_keys bufs3).getD physId ⟨0, 0⟩)
  pure { compute_sequence := seq
         allocations := assign_allocations g bufs3 physStart
         max_usages := regions.map (fun reg => (reg.loc, reg.musage)) }

/-! Basic lemmas about the buffer map. -/

theorem bufFind_bufUpdate_self (bs : Buffers) (r : OutRef) (f : LogicalBuffer → LogicalBuffer) :
    bufFind (bufUpdate bs r f) r = (bufFind bs r).map f := by
  induction bs with
  | nil => rfl
  | cons p rest ih =>
    by_cases h : p.1 = r
    · simp [bufUpdate, bufFind, h]
    · simpa [bufUpdate, bufFind, h] using ih

theorem bufFind_bufUpdate_ne (bs : Buffers) (r s : OutRef) (f : LogicalBuffer → LogicalBuffer)
    (h : s ≠ r) : bufFind (bufUpdate bs r f) s = bufFind bs s := by
  have hrs : ¬ r = s := fun hc => h hc.symm
  induction bs with
  | nil => rfl
  | cons p rest ih =>
    by_cases hs : p.1 = s
    · have hpr : ¬ p.1 = r := by rw [hs]; exact h
      simp [bufUpdate, bufFind, hs, hpr, h]
    · by_cases hp : p.1 = r
      · simpa [bufUpdate, bufFind, hp, hs, hrs] using ih
      · simpa [bufUpdate, bufFind, hp, hs] using ih

theorem bufUpdate_length (bs : Buffers) (r : OutRef) (f : LogicalBuffer → LogicalBuffer) :
    (bufUpdate bs r f).length = bs.length := by
  simp [bufUpdate]

theorem bufFind_mem_keys (bs : Buffers) (r : OutRef) (b : LogicalBuffer)
    (h : bufFind bs r = some b) : r ∈ bs.map Prod.fst := by
  induction bs with
  | nil => simp [bufFind] at h
  | cons p rest ih =>
    by_cases hp : p.1 = r
    · simp [hp.symm]
    · simp [bufFind, hp] at h
      simpa using Or.inr (ih h)

/-- Claim C6: scheduling is deterministic.  In this embedding the scheduler
is a pure function of the graph and the target's allocator bank (the
pointer-keyed hash-map iteration order of the C++ is canonicalised to
buffer insertion order), so two runs on the same graph and bank coincide
bitwise. -/
theorem claim_C6 (g : Graph) (bank : Bank) : schedule g bank = schedule g bank := rfl

/-- Claim C9: during lifetime construction, releasing a buffer whose
used_count is already zero raises the fatal error; releasing a live buffer
decrements used_count by exactly one and raises no error, leaving every
other buffer untouched. -/
theorem claim_C9 (bs : Buffers) (r : OutRef) (b : LogicalBuffer)
    (hfind : bufFind bs r = some b) :
    (b.lifetime.used_count = 0 →
        lr_release bs r = Except.error "Trying to free a released buffer") ∧
    (0 < b.lifetime.used_count →
        ∃ bs', lr_release bs r = Except.ok bs' ∧
          (∃ b', bufFind bs' r = some b' ∧
             b'.lifetime.used_count + 1 = b.lifetime.used_count ∧
             b'.lifetime.birth = b.lifetime.birth ∧ b'.lifetime.age = b.lifetime.age) ∧
          ∀ s, s ≠ r → bufFind bs' s = bufFind bs s) := by
  constructor
  · intro h0
    simp [lr_release, hfind, Lifetime.is_alive, h0]
  · intro hpos
    refine ⟨bufUpdate bs r (fun b =>
      { b with lifetime := { b.lifetime with used_count := b.lifetime.used_count - 1 } }),
      ?_, ?_, ?_⟩
    · simp [lr_release, hfind, Lifetime.is_alive, hpos]
    · refine ⟨{ b with lifetime := { b.lifetime with used_count := b.lifetime.used_count - 1 } },
        ?_, ?_, rfl, rfl⟩
      · rw [bufFind_bufUpdate_self, hfind]; rfl
      · simp [Nat.sub_add_cancel hpos]
    · intro s hs
      exact bufFind_bufUpdate_ne _ _ _ _ hs

def demoRef : OutRef := ⟨0, 0⟩

def demoBuf : LogicalBuffer :=
  { id := 0, owner := demoRef, memory_location := MemLoc.mem_data
    lifetime := { birth := 0, age := 1, used_count := 2 }, parent := none }

theorem claim_C9_witness :
    bufFind [(demoRef, demoBuf)] demoRef = some demoBuf ∧
    ((demoBuf.lifetime.used_count = 0 →
        lr_release [(demoRef, demoBuf)] demoRef =
          Except.error "Trying to free a released buffer") ∧
     (0 < demoBuf.lifetime.used_count →
        ∃ bs', lr_release [(demoRef, demoBuf)] demoRef = Except.ok bs' ∧
          (∃ b', bufFind bs' demoRef = some b' ∧
             b'.lifetime.used_count + 1 = demoBuf.lifetime.used_count ∧
             b'.lifetime.birth = demoBuf.lifetime.birth ∧
             b'.lifetime.age = demoBuf.lifetime.age) ∧
          ∀ s, s ≠ demoRef → bufFind bs' s = bufFind [(demoRef, demoBuf)] s)) :=
  ⟨rfl, claim_C9 [(demoRef, demoBuf)] demoRef demoBuf rfl⟩

/-- Claim C3: for a bitcast node with input buffer `in` and output buffer
`out`: if `out` is tagged output and `in` is tagged data, `in` is promoted
to output; then, unless `out` is output while `in` is input or rdata, the
output buffer's parent is set to `(in, zero begin)` and the node's action
bit is cleared; in the excluded case the action bit is untouched and no
parent is recorded. -/
theorem claim_C3 (g : Graph) (st : AliasState) (n : NodeId) (inref : OutRef)
    (rest : List OutRef) (inb outb : LogicalBuffer)
    (hop : (g.node n).opcode = Opcode.bitcast)
    (hin : (g.node n).inputs = inref :: rest)
    (hne : inref ≠ (⟨n, 0⟩ : OutRef))
    (hfi : bufFind st.buffers inref = some inb)
    (hfo : bufFind st.buffers ⟨n, 0⟩ = some outb) :
    (bufFind (alias_step g st n).buffers inref = some
      { inb with memory_location :=
          if outb.memory_location = MemLoc.mem_output ∧ inb.memory_location = MemLoc.mem_data
          then MemLoc.mem_output else inb.memory_location }) ∧
    (¬ (outb.memory_location = MemLoc.mem_output ∧
          (inb.memory_location = MemLoc.mem_input ∨ inb.memory_location = MemLoc.mem_rdata)) →
        bufFind (alias_step g st n).buffers ⟨n, 0⟩ = some
          { outb with parent := some ⟨inref, List.replicate (g.outShape inref).length 0⟩ } ∧
        n ∈ (alias_step g st n).cleared) ∧
    ((outb.memory_location = MemLoc.mem_output ∧
          (inb.memory_location = MemLoc.mem_input ∨ inb.memory_location = MemLoc.mem_rdata)) →
        bufFind (alias_step g st n).buffers ⟨n, 0⟩ = some outb ∧
        ((alias_step g st n).cleared = st.cleared)) := by
  have hstep : alias_step g st n = bitcast_step g st n := by
    simp [alias_step, hop]
  have hmemclear : n ∈ clearNode st.cleared n := by
    unfold clearNode
    by_cases hmem : n ∈ st.cleared
    · rw [if_pos hmem]; exact hmem
    · simp [hmem]
  by_cases hpromo : outb.memory_location = MemLoc.mem_output ∧
      inb.memory_location = MemLoc.mem_data
  · -- promotion happens; the excluded case is impossible
    have hinloc : bufFind (bufUpdate st.buffers inref
        (fun b => { b with memory_location := MemLoc.mem_output })) inref =
        some { inb with memory_location := MemLoc.mem_output } := by
      rw [bufFind_bufUpdate_self, hfi]; rfl
    have hexcl : ¬ (outb.memory_location = MemLoc.mem_output ∧
        (inb.memory_location = MemLoc.mem_input ∨ inb.memory_location = MemLoc.mem_rdata)) := by
      rintro ⟨-, h | h⟩ <;> rw [hpromo.2] at h <;> exact MemLoc.noConfusion h
    have hcond : ¬ (outb.memory_location = MemLoc.mem_output ∧
        ((MemLoc.mem_output : MemLoc) = MemLoc.mem_input ∨
         (MemLoc.mem_output : MemLoc) = MemLoc.mem_rdata)) := by
      rintro ⟨-, h | h⟩ <;> exact MemLoc.noConfusion h
    have hred : bitcast_step g st n =
        { buffers := bufUpdate (bufUpdate st.buffers inref
            (fun b => { b with memory_location := MemLoc.mem_output })) ⟨n, 0⟩
            (fun b => { b with parent := some ⟨inref, List.replicate (g.outShape inref).length 0⟩ })
          cleared := clearNode st.cleared n } := by
      unfold bitcast_step
      rw [hin]
      simp only [hfi, hfo, if_pos hpromo, hinloc, if_neg hcond]
    refine ⟨?_, fun _ => ⟨?_, ?_⟩, fun hc => absurd hc hexcl⟩
    · rw [hstep, hred]
      simp only
      rw [bufFind_bufUpdate_ne _ _ _ _ hne, hinloc]
      simp [if_pos hpromo]
    · rw [hstep, hred]
      simp only
      rw [bufFind_bufUpdate_self, bufFind_bufUpdate_ne _ _ _ _ (fun hc => hne hc.symm), hfo]
      rfl
    · rw [hstep, hred]
      exact hmemclear
  · -- no promotion
    by_cases hexcl : outb.memory_location = MemLoc.mem_output ∧
        (inb.memory_location = MemLoc.mem_input ∨ inb.memory_location = MemLoc.mem_rdata)
    · have hred : bitcast_step g st n = { st with buffers := st.buffers } := by
        unfold bitcast_step
        rw [hin]
        simp only [hfi, hfo, if_neg hpromo, if_pos hexcl]
      refine ⟨?_, fun hc => absurd hexcl hc, fun _ => ⟨?_, ?_⟩⟩
      · rw [hstep, hred]
        simp only
        rw [hfi]
        simp [if_neg hpromo]
      · rw [hstep, hred]
        exact hfo
      · rw [hstep, hred]
    · have hred : bitcast_step g st n =
          { buffers := bufUpdate st.buffers ⟨n, 0⟩
              (fun b => { b with parent := some ⟨inref, List.replicate (g.outShape inref).length 0⟩ })
            cleared := clearNode st.cleared n } := by
        unfold bitcast_step
        rw [hin]
        simp only [hfi, hfo, if_neg hpromo, if_neg hexcl]
      refine ⟨?_, fun _ => ⟨?_, ?_⟩, fun hc => absurd hc hexcl⟩
      · rw [hstep, hred]
        simp only
        rw [bufFind_bufUpdate_ne _ _ _ _ hne, hfi]
        simp [if_neg hpromo]
      · rw [hstep, hred]
        simp only
        rw [bufFind_bufUpdate_self, hfo]
        rfl
      · rw [hstep, hred]
        exact hmemclear
def f32 : DType := ⟨4⟩

def gC3 : Graph :=
  { nodes :=
      [ ⟨Opcode.input_node, true, [], [[2, 3]], [f32], 0⟩
      , ⟨Opcode.other, true, [⟨0, 0⟩], [[2, 3]], [f32], 0⟩
      , ⟨Opcode.bitcast, true, [⟨1, 0⟩], [[6]], [f32], 0⟩
      , ⟨Opcode.output_node, true, [⟨2, 0⟩], [], [], 0⟩ ]
    outputs := [3] }

def bufC3in : LogicalBuffer :=
  { id := 0, owner := ⟨1, 0⟩, memory_location := MemLoc.mem_data
    lifetime := { birth := 1, age := 1, used_count := 1 }, parent := none }

def bufC3out : LogicalBuffer :=
  { id := 1, owner := ⟨2, 0⟩, memory_location := MemLoc.mem_output
    lifetime := { birth := 2, age := 1, used_count := 1 }, parent := none }

def stC3 : AliasState :=
  { buffers := [(⟨1, 0⟩, bufC3in), (⟨2, 0⟩, bufC3out)], cleared := [] }

theorem claim_C3_witness :
    (gC3.node 2).opcode = Opcode.bitcast ∧
    ((bufFind (alias_step gC3 stC3 2).buffers ⟨1, 0⟩ = some
      { bufC3in with memory_location :=
          if bufC3out.memory_location = MemLoc.mem_output ∧
             bufC3in.memory_location = MemLoc.mem_data
          then MemLoc.mem_output else bufC3in.memory_location }) ∧
    (¬ (bufC3out.memory_location = MemLoc.mem_output ∧
          (bufC3in.memory_location = MemLoc.mem_input ∨
           bufC3in.memory_location = MemLoc.mem_rdata)) →
        bufFind (alias_step gC3 stC3 2).buffers ⟨2, 0⟩ = some
          { bufC3out with parent := some ⟨⟨1, 0⟩,
              List.replicate (gC3.outShape ⟨1, 0⟩).length 0⟩ } ∧
        2 ∈ (alias_step gC3 stC3 2).cleared) ∧
    ((bufC3out.memory_location = MemLoc.mem_output ∧
          (bufC3in.memory_location = MemLoc.mem_input ∨
           bufC3in.memory_location = MemLoc.mem_rdata)) →
        bufFind (alias_step gC3 stC3 2).buffers ⟨2, 0⟩ = some bufC3out ∧
        ((alias_step gC3 stC3 2).cleared = stC3.cleared))) :=
  ⟨rfl, claim_C3 gC3 stC3 2 ⟨1, 0⟩ [] bufC3in bufC3out rfl rfl (by decide) rfl rfl⟩

/-! Parent chains and the flatten phase of fix_lifetime. -/

/-- A parent chain in the buffer map: starting at the given buffer, the
stored parent descriptors follow the listed links (target, begin) and end
at a parentless buffer. -/
def IsChain (bs : Buffers) : OutRef → List (OutRef × List Nat) → Prop
  | x, [] => ∃ b, bufFind bs x = some b ∧ b.parent = none
  | x, (y, β) :: rest =>
      (∃ b, bufFind bs x = some b ∧ b.parent = some ⟨y, β⟩) ∧ IsChain bs y rest

/-- Invariant of a chain during the flatten fold: every member's stored
descriptor is either still its original link or already the final link
`(t, βl)`, and the chain ends at the parentless root `t`. -/
def ChainInv (bs : Buffers) (t : OutRef) (βl : List Nat) :
    OutRef → List (OutRef × List Nat) → Prop
  | x, [] => x = t ∧ ∃ b, bufFind bs x = some b ∧ b.parent = none
  | x, (y, β) :: rest =>
      (rest = [] → y = t ∧ β = βl) ∧
      (∃ b, bufFind bs x = some b ∧
        (b.parent = some ⟨y, β⟩ ∨ b.parent = some ⟨t, βl⟩)) ∧
      ChainInv bs t βl y rest

theorem isChain_chainInv (bs : Buffers) (t : OutRef) (βl : List Nat) :
    ∀ (mid : List (OutRef × List Nat)) (x : OutRef),
      IsChain bs x (mid ++ [(t, βl)]) → ChainInv bs t βl x (mid ++ [(t, βl)]) := by
  intro mid
  induction mid with
  | nil =>
    intro x h
    obtain ⟨⟨b, hb, hp⟩, hrest⟩ := h
    exact ⟨fun _ => ⟨rfl, rfl⟩, ⟨b, hb, Or.inl hp⟩, rfl, hrest⟩
  | cons l mid ih =>
    intro x h
    obtain ⟨⟨b, hb, hp⟩, hrest⟩ := h
    refine ⟨fun hc => absurd hc (by simp), ⟨b, hb, Or.inl hp⟩, ih l.1 hrest⟩

theorem chainInv_root (bs : Buffers) (t : OutRef) (βl : List Nat) :
    ∀ (L : List (OutRef × List Nat)) (x : OutRef),
      ChainInv bs t βl x L → ∃ b, bufFind bs t = some b ∧ b.parent = none := by
  intro L
  induction L with
  | nil =>
    intro x h
    obtain ⟨hx, hb⟩ := h
    exact hx ▸ hb
  | cons l rest ih =>
    intro x h
    exact ih l.1 h.2.2

/-- Chasing from a descriptor whose target is the parentless root is the
identity, at any fuel. -/
theorem chase_parent_root (bs : Buffers) (t : OutRef) (b : LogicalBuffer)
    (hfind : bufFind bs t = some b) (hroot : b.parent = none) :
    ∀ (fuel : Nat) (β : List Nat), chase_parent bs fuel ⟨t, β⟩ = ⟨t, β⟩ := by
  intro fuel β
  cases fuel with
  | zero => rfl
  | succ f => simp [chase_parent, hfind, hroot]

/-- Chasing along a chain (whose members may already be flattened) reaches
the final link. -/
theorem chase_chainInv (bs : Buffers) (t : OutRef) (βl : List Nat) :
    ∀ (L : List (OutRef × List Nat)) (fuel : Nat) (y : OutRef) (β : List Nat),
      ChainInv bs t βl y L → (L = [] → y = t ∧ β = βl) → L.length ≤ fuel →
      chase_parent bs fuel ⟨y, β⟩ = ⟨t, βl⟩ := by
  intro L
  induction L with
  | nil =>
    intro fuel y β hinv hlast _
    obtain ⟨hyt, hβ⟩ := hlast rfl
    obtain ⟨hy, b, hb, hp⟩ := hinv
    subst hyt hβ
    exact chase_parent_root bs y b hb hp fuel β
  | cons l rest ih =>
    intro fuel y β hinv _ hlen
    obtain ⟨hlast, ⟨b, hb, hp⟩, hrest⟩ := hinv
    cases fuel with
    | zero => simp at hlen
    | succ f =>
      have hroot := chainInv_root bs t βl rest l.1 hrest
      rcases hp with hp | hp
      · have hstep := ih f l.1 l.2 hrest hlast (by simpa using Nat.le_of_succ_le_succ hlen)
        simp only [chase_parent, hb, hp]
        exact hstep
      · obtain ⟨rb, hrb, hrbp⟩ := hroot
        have hstep := chase_parent_root bs t rb hrb hrbp f βl
        simp only [chase_parent, hb, hp]
        exact hstep

/-- Reduction lemmas for flatten_step. -/
theorem flatten_step_eq_none (bs : Buffers) (r : OutRef)
    (h : bufFind bs r = none) : flatten_step bs r = bs := by
  unfold flatten_step
  simp only [h]

theorem flatten_step_eq_root (bs : Buffers) (r : OutRef) (b : LogicalBuffer)
    (h : bufFind bs r = some b) (hp : b.parent = none) : flatten_step bs r = bs := by
  unfold flatten_step
  simp only [h, hp]

theorem flatten_step_eq_parent (bs : Buffers) (r : OutRef) (b : LogicalBuffer)
    (p : ParentDesc) (h : bufFind bs r = some b) (hp : b.parent = some p) :
    flatten_step bs r =
      bufUpdate bs r (fun bb => { bb with parent := some (chase_parent bs bs.length p) }) := by
  unfold flatten_step
  simp only [h, hp]

/-- A parentless entry survives any flatten step unchanged. -/
theorem flatten_step_root (bs : Buffers) (r x : OutRef) (b : LogicalBuffer)
    (hfind : bufFind bs x = some b) (hroot : b.parent = none) :
    bufFind (flatten_step bs r) x = some b := by
  cases hr : bufFind bs r with
  | none => rw [flatten_step_eq_none bs r hr]; exact hfind
  | some br =>
    cases hbp : br.parent with
    | none => rw [flatten_step_eq_root bs r br hr hbp]; exact hfind
    | some p =>
      rw [flatten_step_eq_parent bs r br p hr hbp]
      by_cases hxr : x = r
      · subst hxr
        rw [hfind] at hr
        cases hr
        exact absurd hbp (by rw [hroot]; exact fun hc => Option.noConfusion hc)
      · rw [bufFind_bufUpdate_ne _ _ _ _ hxr]
        exact hfind

theorem flatten_step_length (bs : Buffers) (r : OutRef) :
    (flatten_step bs r).length = bs.length := by
  cases hr : bufFind bs r with
  | none => rw [flatten_step_eq_none bs r hr]
  | some br =>
    cases hbp : br.parent with
    | none => rw [flatten_step_eq_root bs r br hr hbp]
    | some p =>
      rw [flatten_step_eq_parent bs r br p hr hbp]
      exact bufUpdate_length bs r _

/-- One flatten step preserves the chain invariant. -/
theorem chainInv_flatten_step (bs : Buffers) (t : OutRef) (βl : List Nat) :
    ∀ (L : List (OutRef × List Nat)) (x : OutRef) (r : OutRef),
      ChainInv bs t βl x L → L.length ≤ bs.length →
      ChainInv (flatten_step bs r) t βl x L := by
  intro L
  induction L with
  | nil =>
    intro x r h _
    obtain ⟨hx, b, hb, hp⟩ := h
    exact ⟨hx, b, flatten_step_root bs r x b hb hp, hp⟩
  | cons l rest ih =>
    intro x r h hlentot
    obtain ⟨hlast, ⟨b, hb, hp⟩, hrest⟩ := h
    have hlen : rest.length ≤ bs.length := by
      simpa using Nat.le_of_succ_le hlentot
    refine ⟨hlast, ?_, ih l.1 r hrest hlen⟩
    by_cases hxr : x = r
    · subst hxr
      have hchase : ∀ d, b.parent = some d →
          chase_parent bs bs.length d = ⟨t, βl⟩ := by
        intro d hd
        rcases hp with hp | hp <;> rw [hp] at hd <;> cases hd
        · exact chase_chainInv bs t βl rest bs.length l.1 l.2 hrest hlast hlen
        · obtain ⟨rb, hrb, hrbp⟩ := chainInv_root bs t βl rest l.1 hrest
          exact chase_parent_root bs t rb hrb hrbp bs.length βl
      rcases hp with hp | hp
      all_goals {
        refine ⟨{ b with parent := some ⟨t, βl⟩ }, ?_, Or.inr rfl⟩
        rw [flatten_step_eq_parent bs x b _ hb hp, bufFind_bufUpdate_self, hb]
        simp only [Option.map_some']
        rw [hchase _ hp]
      }
    · refine ⟨b, ?_, hp⟩
      cases hr : bufFind bs r with
      | none => rw [flatten_step_eq_none bs r hr]; exact hb
      | some br =>
        cases hbp : br.parent with
        | none => rw [flatten_step_eq_root bs r br hr hbp]; exact hb
        | some p =>
          rw [flatten_step_eq_parent bs r br p hr hbp]
          rw [bufFind_bufUpdate_ne _ _ _ _ hxr]
          exact hb

/-- A buffer whose stored begin is exactly the final link is absorbed: any
flatten step leaves it unchanged. -/
theorem flat_entry_step (bs : Buffers) (t : OutRef) (βl : List Nat) (x : OutRef)
    (bflat : LogicalBuffer) (r : OutRef)
    (hroot : ∃ rb, bufFind bs t = some rb ∧ rb.parent = none)
    (hfind : bufFind bs x = some bflat) (hp : bflat.parent = some ⟨t, βl⟩) :
    bufFind (flatten_step bs r) x = some bflat := by
  by_cases hxr : x = r
  · subst hxr
    rw [flatten_step_eq_parent bs x bflat _ hfind hp, bufFind_bufUpdate_self, hfind]
    simp only [Option.map_some']
    obtain ⟨rb, hrb, hrbp⟩ := hroot
    rw [chase_parent_root bs t rb hrb hrbp]
    rw [← hp]
  · cases hr : bufFind bs r with
    | none => rw [flatten_step_eq_none bs r hr]; exact hfind
    | some br =>
      cases hbp : br.parent with
      | none => rw [flatten_step_eq_root bs r br hr hbp]; exact hfind
      | some p =>
        rw [flatten_step_eq_parent bs r br p hr hbp]
        rw [bufFind_bufUpdate_ne _ _ _ _ hxr]
        exact hfind

theorem flat_entry_foldl (t : OutRef) (βl : List Nat) :
    ∀ (keys : List OutRef) (bs : Buffers) (x : OutRef) (bflat : LogicalBuffer),
      (∃ rb, bufFind bs t = some rb ∧ rb.parent = none) →
      bufFind bs x = some bflat → bflat.parent = some ⟨t, βl⟩ →
      bufFind (keys.foldl flatten_step bs) x = some bflat := by
  intro keys
  induction keys with
  | nil => intro bs x bflat _ hfind _; exact hfind
  | cons k ks ih =>
    intro bs x bflat hroot hfind hp
    obtain ⟨rb, hrb, hrbp⟩ := hroot
    exact ih (flatten_step bs k) x bflat
      ⟨rb, flatten_step_root bs k t rb hrb hrbp, hrbp⟩
      (flat_entry_step bs t βl x bflat k ⟨rb, hrb, hrbp⟩ hfind hp) hp

/-- The combined invariant carried over a prefix of the flatten fold: the
chain invariant, invariance of the map length, and the fact that the head
buffer is either untouched or already flattened. -/
theorem chainInv_disj_foldl (t : OutRef) (βl : List Nat) :
    ∀ (keys : List OutRef) (bs : Buffers) (x y : OutRef) (β : List Nat)
      (mid : List (OutRef × List Nat)) (bx : LogicalBuffer),
      ChainInv bs t βl x (((y, β) :: mid) ++ [(t, βl)]) →
      mid.length + 2 ≤ bs.length →
      (bufFind bs x = some bx ∨ bufFind bs x = some { bx with parent := some ⟨t, βl⟩ }) →
      bx.parent = some ⟨y, β⟩ →
      ChainInv (keys.foldl flatten_step bs) t βl x (((y, β) :: mid) ++ [(t, βl)]) ∧
      (keys.foldl flatten_step bs).length = bs.length ∧
      (bufFind (keys.foldl flatten_step bs) x = some bx ∨
       bufFind (keys.foldl flatten_step bs) x = some { bx with parent := some ⟨t, βl⟩ }) := by
  intro keys
  induction keys with
  | nil =>
    intro bs x y β mid bx hinv hlen hdisj hbxp
    exact ⟨hinv, rfl, hdisj⟩
  | cons k ks ih =>
    intro bs x y β mid bx hinv hlen hdisj hbxp
    have hlenL : (((y, β) :: mid) ++ [(t, βl)]).length ≤ bs.length := by
      simpa using hlen
    have hinv1 := chainInv_flatten_step bs t βl _ x k hinv hlenL
    have hlen1 : (flatten_step bs k).length = bs.length := flatten_step_length bs k
    have hroot := chainInv_root bs t βl _ x hinv
    have hsub : ChainInv bs t βl y (mid ++ [(t, βl)]) := hinv.2.2
    have hchasefirst : chase_parent bs bs.length ⟨y, β⟩ = ⟨t, βl⟩ := by
      refine chase_chainInv bs t βl (mid ++ [(t, βl)]) bs.length y β hsub
        (fun hc => absurd hc (by simp)) ?_
      simpa using Nat.le_of_succ_le hlen
    have hdisj1 : bufFind (flatten_step bs k) x = some bx ∨
        bufFind (flatten_step bs k) x = some { bx with parent := some ⟨t, βl⟩ } := by
      rcases hdisj with hcur | hcur
      · by_cases hxk : x = k
        · subst hxk
          right
          rw [flatten_step_eq_parent bs x bx _ hcur hbxp, bufFind_bufUpdate_self, hcur]
          simp only [Option.map_some']
          rw [hchasefirst]
        · left
          cases hr : bufFind bs k with
          | none => rw [flatten_step_eq_none bs k hr]; exact hcur
          | some br =>
            cases hbp : br.parent with
            | none => rw [flatten_step_eq_root bs k br hr hbp]; exact hcur
            | some p =>
              rw [flatten_step_eq_parent bs k br p hr hbp]
              rw [bufFind_bufUpdate_ne _ _ _ _ hxk]
              exact hcur
      · right
        exact flat_entry_step bs t βl x _ k hroot hcur rfl
    have hres := ih (flatten_step bs k) x y β mid bx hinv1 (hlen1 ▸ hlen) hdisj1 hbxp
    refine ⟨hres.1, ?_, hres.2.2⟩
    simp only [List.foldl_cons]
    rw [hres.2.1, hlen1]

/-- Claim C10 (amended reading of the source): in fix_lifetime's
root-promotion loop, a buffer whose parent chain has length at least two
gets its whole parent descriptor overwritten by a copy of the descriptor
stored on the ancestor directly below the root, so its final begin is that
ancestor's begin and its own begin is discarded, not composed. -/
theorem claim_C10 (bs : Buffers) (x y t : OutRef) (β βl : List Nat)
    (mid : List (OutRef × List Nat)) (bx : LogicalBuffer)
    (hchain : IsChain bs x (((y, β) :: mid) ++ [(t, βl)]))
    (hfind : bufFind bs x = some bx)
    (hlen : mid.length + 2 ≤ bs.length) :
    bufFind (fix_lifetime_flatten bs) x = some { bx with parent := some ⟨t, βl⟩ } := by
  have hinv := isChain_chainInv bs t βl ((y, β) :: mid) x hchain
  have hbxp : bx.parent = some ⟨y, β⟩ := by
    obtain ⟨⟨b, hb, hp⟩, -⟩ := hchain
    rw [hfind] at hb
    cases hb
    exact hp
  have hx : x ∈ bs.map Prod.fst := bufFind_mem_keys bs x bx hfind
  obtain ⟨k1, k2, hsplit⟩ := List.append_of_mem hx
  unfold fix_lifetime_flatten
  rw [hsplit, List.foldl_append]
  have hD1 := chainInv_disj_foldl t βl k1 bs x y β mid bx hinv hlen (Or.inl hfind) hbxp
  obtain ⟨hinv1, hlen1, hdisj1⟩ := hD1
  set bs1 := k1.foldl flatten_step bs with hbs1
  have hlenL1 : mid.length + 2 ≤ bs1.length := by rw [hlen1]; exact hlen
  have hroot1 := chainInv_root bs1 t βl _ x hinv1
  have hsub1 : ChainInv bs1 t βl y (mid ++ [(t, βl)]) := hinv1.2.2
  have hchase1 : chase_parent bs1 bs1.length ⟨y, β⟩ = ⟨t, βl⟩ := by
    refine chase_chainInv bs1 t βl (mid ++ [(t, βl)]) bs1.length y β hsub1
      (fun hc => absurd hc (by simp)) ?_
    simpa using Nat.le_of_succ_le hlenL1
  have hstepx : bufFind (flatten_step bs1 x) x = some { bx with parent := some ⟨t, βl⟩ } := by
    rcases hdisj1 with hcur | hcur
    · rw [flatten_step_eq_parent bs1 x bx _ hcur hbxp, bufFind_bufUpdate_self, hcur]
      simp only [Option.map_some']
      rw [hchase1]
    · exact flat_entry_step bs1 t βl x _ x hroot1 hcur rfl
  have hinv2 := chainInv_flatten_step bs1 t βl _ x x hinv1 (by simpa using hlenL1)
  have hroot2 := chainInv_root (flatten_step bs1 x) t βl _ x hinv2
  simp only [List.foldl_cons]
  exact flat_entry_foldl t βl k2 (flatten_step bs1 x) x _ hroot2 hstepx rfl

def bufC10a : LogicalBuffer :=
  { id := 0, owner := ⟨1, 0⟩, memory_location := MemLoc.mem_data
    lifetime := { birth := 1, age := 1, used_count := 1 }
    parent := some ⟨⟨2, 0⟩, [7]⟩ }

def bufC10b : LogicalBuffer :=
  { id := 1, owner := ⟨2, 0⟩, memory_location := MemLoc.mem_data
    lifetime := { birth := 2, age := 1, used_count := 1 }
    parent := some ⟨⟨3, 0⟩, [3]⟩ }

def bufC10c : LogicalBuffer :=
  { id := 2, owner := ⟨3, 0⟩, memory_location := MemLoc.mem_data
    lifetime := { birth := 3, age := 1, used_count := 1 }
    parent := none }

def bufsC10 : Buffers := [(⟨1, 0⟩, bufC10a), (⟨2, 0⟩, bufC10b), (⟨3, 0⟩, bufC10c)]

theorem claim_C10_witness :
    bufFind bufsC10 ⟨1, 0⟩ = some bufC10a ∧
    bufFind (fix_lifetime_flatten bufsC10) ⟨1, 0⟩ =
      some { bufC10a with parent := some ⟨⟨3, 0⟩, [3]⟩ } :=
  ⟨rfl, claim_C10 bufsC10 ⟨1, 0⟩ ⟨2, 0⟩ ⟨3, 0⟩ [7] [3] [] bufC10a
    ⟨⟨bufC10a, rfl, rfl⟩, ⟨bufC10b, rfl, rfl⟩, ⟨bufC10c, rfl, rfl⟩⟩ rfl (by decide)⟩

/-! Machinery for claim C5: rank-based well-formedness of parent chains,
flattening reaches roots, and lifetime containment after extension. -/

/-- Parent references are well founded: every stored parent exists and has
strictly smaller rank. -/
def ParentWF (bs : Buffers) (rank : OutRef → Nat) : Prop :=
  ∀ r b p, bufFind bs r = some b → b.parent = some p →
    (∃ pb, bufFind bs p.parent = some pb) ∧ rank p.parent < rank r

/-- Ranks of mapped buffers are bounded. -/
def RankBound (bs : Buffers) (rank : OutRef → Nat) (N : Nat) : Prop :=
  ∀ r b, bufFind bs r = some b → rank r < N

/-- Every stored parent points directly at a parentless buffer. -/
def RootTargets (bs : Buffers) : Prop :=
  ∀ r b p, bufFind bs r = some b → b.parent = some p →
    ∃ pb, bufFind bs p.parent = some pb ∧ pb.parent = none

/-- The buffer's parent (if any) points at a parentless buffer. -/
def Flattened (bs : Buffers) (x : OutRef) : Prop :=
  ∀ b p, bufFind bs x = some b → b.parent = some p →
    ∃ pb, bufFind bs p.parent = some pb ∧ pb.parent = none

/-- The root's lifetime interval contains the buffer's. -/
def Contained (bs : Buffers) (x : OutRef) : Prop :=
  ∀ b p pb, bufFind bs x = some b → b.parent = some p →
    bufFind bs p.parent = some pb →
    pb.lifetime.birth ≤ b.lifetime.birth ∧ b.lifetime.lifeEnd ≤ pb.lifetime.lifeEnd

theorem bufFind_bufUpdate_fwd (bs : Buffers) (r x : OutRef) (f : LogicalBuffer → LogicalBuffer)
    (bx : LogicalBuffer) (h : bufFind bs x = some bx) :
    ∃ bx', bufFind (bufUpdate bs r f) x = some bx' := by
  by_cases hx : x = r
  · subst hx
    rw [bufFind_bufUpdate_self, h]
    exact ⟨f bx, rfl⟩
  · rw [bufFind_bufUpdate_ne _ _ _ _ hx]
    exact ⟨bx, h⟩

theorem bufFind_bufUpdate_inv (bs : Buffers) (r x : OutRef) (f : LogicalBuffer → LogicalBuffer)
    (bx' : LogicalBuffer) (h : bufFind (bufUpdate bs r f) x = some bx') :
    ∃ bx, bufFind bs x = some bx ∧ (bx' = bx ∨ (x = r ∧ bx' = f bx)) := by
  by_cases hx : x = r
  · subst hx
    rw [bufFind_bufUpdate_self] at h
    cases hb : bufFind bs x with
    | none => rw [hb] at h; cases h
    | some bx =>
      rw [hb] at h
      cases h
      exact ⟨bx, rfl, Or.inr ⟨rfl, rfl⟩⟩
  · rw [bufFind_bufUpdate_ne _ _ _ _ hx] at h
    exact ⟨bx', h, Or.inl rfl⟩

/-- Chasing reaches a parentless buffer, never increasing the rank. -/
theorem chase_reaches_root (bs : Buffers) (rank : OutRef → Nat) (hwf : ParentWF bs rank) :
    ∀ (fuel : Nat) (p : ParentDesc) (pb : LogicalBuffer),
      bufFind bs p.parent = some pb → rank p.parent < fuel →
      (∃ qb, bufFind bs (chase_parent bs fuel p).parent = some qb ∧ qb.parent = none) ∧
      rank (chase_parent bs fuel p).parent ≤ rank p.parent := by
  intro fuel
  induction fuel with
  | zero => intro p pb hpb hlt; exact absurd hlt (Nat.not_lt_zero _)
  | succ f ih =>
    intro p pb hpb hlt
    cases hq : pb.parent with
    | none =>
      refine ⟨⟨pb, ?_, hq⟩, ?_⟩
      · simp only [chase_parent, hpb, hq]
      · simp only [chase_parent, hpb, hq]
        exact Nat.le_refl _
    | some q =>
      obtain ⟨⟨qb, hqb⟩, hrk⟩ := hwf p.parent pb q hpb hq
      have hltq : rank q.parent < f :=
        Nat.lt_of_lt_of_le hrk (Nat.lt_succ_iff.mp hlt)
      have hres := ih q qb hqb hltq
      simp only [chase_parent, hpb, hq]
      exact ⟨hres.1, Nat.le_trans hres.2 (Nat.le_of_lt hrk)⟩

theorem parentWF_flatten_step (bs : Buffers) (rank : OutRef → Nat)
    (hwf : ParentWF bs rank) (hrb : RankBound bs rank bs.length) (r : OutRef) :
    ParentWF (flatten_step bs r) rank := by
  cases hr : bufFind bs r with
  | none => rw [flatten_step_eq_none bs r hr]; exact hwf
  | some br =>
    cases hbp : br.parent with
    | none => rw [flatten_step_eq_root bs r br hr hbp]; exact hwf
    | some p =>
      rw [flatten_step_eq_parent bs r br p hr hbp]
      intro x b' p' hf' hp'
      by_cases hxr : x = r
      · rw [hxr, bufFind_bufUpdate_self, hr] at hf'
        simp only [Option.map_some'] at hf'
        cases hf'
        simp only at hp'
        cases hp'
        obtain ⟨⟨pb0, hpb0⟩, hrk0⟩ := hwf r br p hr hbp
        have hrkb : rank p.parent < bs.length := hrb p.parent pb0 hpb0
        obtain ⟨⟨qb, hqb, hqroot⟩, hle⟩ :=
          chase_reaches_root bs rank hwf bs.length p pb0 hpb0 hrkb
        obtain ⟨qb', hqb'⟩ := bufFind_bufUpdate_fwd bs r _ _ qb hqb
        rw [hxr]
        exact ⟨⟨qb', hqb'⟩, Nat.lt_of_le_of_lt hle hrk0⟩
      · rw [bufFind_bufUpdate_ne _ _ _ _ hxr] at hf'
        obtain ⟨⟨pb, hpb⟩, hrk⟩ := hwf x b' p' hf' hp'
        obtain ⟨pb', hpb'⟩ := bufFind_bufUpdate_fwd bs r p'.parent _ pb hpb
        exact ⟨⟨pb', hpb'⟩, hrk⟩

theorem rankBound_flatten_step (bs : Buffers) (rank : OutRef → Nat) (N : Nat)
    (hrb : RankBound bs rank N) (r : OutRef) : RankBound (flatten_step bs r) rank N := by
  cases hr : bufFind bs r with
  | none => rw [flatten_step_eq_none bs r hr]; exact hrb
  | some br =>
    cases hbp : br.parent with
    | none => rw [flatten_step_eq_root bs r br hr hbp]; exact hrb
    | some p =>
      rw [flatten_step_eq_parent bs r br p hr hbp]
      intro x b' hf'
      obtain ⟨b, hb, -⟩ := bufFind_bufUpdate_inv bs r x _ b' hf'
      exact hrb x b hb

theorem flatten_step_flattens (bs : Buffers) (rank : OutRef → Nat)
    (hwf : ParentWF bs rank) (hrb : RankBound bs rank bs.length) (k : OutRef) :
    Flattened (flatten_step bs k) k := by
  cases hr : bufFind bs k with
  | none =>
    rw [flatten_step_eq_none bs k hr]
    intro b p hf hp
    rw [hr] at hf
    cases hf
  | some br =>
    cases hbp : br.parent with
    | none =>
      rw [flatten_step_eq_root bs k br hr hbp]
      intro b p hf hp
      rw [hr] at hf
      cases hf
      rw [hbp] at hp
      cases hp
    | some p =>
      rw [flatten_step_eq_parent bs k br p hr hbp]
      intro b' p' hf' hp'
      rw [bufFind_bufUpdate_self, hr] at hf'
      simp only [Option.map_some'] at hf'
      cases hf'
      simp only at hp'
      cases hp'
      obtain ⟨⟨pb0, hpb0⟩, -⟩ := hwf k br p hr hbp
      have hrkb : rank p.parent < bs.length := hrb p.parent pb0 hpb0
      obtain ⟨⟨qb, hqb, hqroot⟩, -⟩ :=
        chase_reaches_root bs rank hwf bs.length p pb0 hpb0 hrkb
      by_cases hqk : (chase_parent bs bs.length p).parent = k
      · rw [hqk] at hqb
        rw [hr] at hqb
        cases hqb
        exact absurd hbp (by rw [hqroot]; exact fun hc => Option.noConfusion hc)
      · refine ⟨qb, ?_, hqroot⟩
        rw [bufFind_bufUpdate_ne _ _ _ _ hqk]
        exact hqb

theorem flatten_step_preserves_flattened (bs : Buffers) (rank : OutRef → Nat)
    (hwf : ParentWF bs rank) (hrb : RankBound bs rank bs.length) (x : OutRef)
    (hx : Flattened bs x) (r : OutRef) : Flattened (flatten_step bs r) x := by
  by_cases hxr : x = r
  · subst hxr
    exact flatten_step_flattens bs rank hwf hrb x
  · cases hr : bufFind bs r with
    | none => rw [flatten_step_eq_none bs r hr]; exact hx
    | some br =>
      cases hbp : br.parent with
      | none => rw [flatten_step_eq_root bs r br hr hbp]; exact hx
      | some p =>
        rw [flatten_step_eq_parent bs r br p hr hbp]
        intro b' p' hf' hp'
        rw [bufFind_bufUpdate_ne _ _ _ _ hxr] at hf'
        obtain ⟨pb, hpb, hproot⟩ := hx b' p' hf' hp'
        by_cases hpr : p'.parent = r
        · rw [hpr] at hpb
          rw [hr] at hpb
          cases hpb
          exact absurd hbp (by rw [hproot]; exact fun hc => Option.noConfusion hc)
        · refine ⟨pb, ?_, hproot⟩
          rw [bufFind_bufUpdate_ne _ _ _ _ hpr]
          exact hpb

theorem flatten_fold_inv (rank : OutRef → Nat) (N : Nat) :
    ∀ (keys : List OutRef) (bs : Buffers),
      bs.length = N → ParentWF bs rank → RankBound bs rank N →
      (keys.foldl flatten_step bs).length = N ∧
      ParentWF (keys.foldl flatten_step bs) rank ∧
      RankBound (keys.foldl flatten_step bs) rank N ∧
      (∀ x, Flattened bs x → Flattened (keys.foldl flatten_step bs) x) ∧
      (∀ k, k ∈ keys → Flattened (keys.foldl flatten_step bs) k) := by
  intro keys
  induction keys with
  | nil =>
    intro bs hN hwf hrb
    exact ⟨hN, hwf, hrb, fun x h => h, fun k hk => absurd hk (List.not_mem_nil k)⟩
  | cons k ks ih =>
    intro bs hN hwf hrb
    have hrbL : RankBound bs rank bs.length := by rw [hN]; exact hrb
    have hN1 : (flatten_step bs k).length = N := by rw [flatten_step_length, hN]
    have hwf1 := parentWF_flatten_step bs rank hwf hrbL k
    have hrb1 := rankBound_flatten_step bs rank N hrb k
    obtain ⟨hNf, hwff, hrbf, hpres, hall⟩ := ih (flatten_step bs k) hN1 hwf1 hrb1
    refine ⟨by simpa using hNf, by simpa using hwff, by simpa using hrbf, ?_, ?_⟩
    · intro x hx
      simp only [List.foldl_cons]
      exact hpres x (flatten_step_preserves_flattened bs rank hwf hrbL x hx k)
    · intro k' hk'
      simp only [List.foldl_cons]
      rcases List.mem_cons.mp hk' with hk' | hk'
      · subst hk'
        exact hpres k' (flatten_step_flattens bs rank hwf hrbL k')
      · exact hall k' hk'

theorem bufUpdate_keys (bs : Buffers) (r : OutRef) (f : LogicalBuffer → LogicalBuffer) :
    (bufUpdate bs r f).map Prod.fst = bs.map Prod.fst := by
  induction bs with
  | nil => rfl
  | cons p rest ih =>
    by_cases hp : p.1 = r <;> simp [bufUpdate, hp] at ih ⊢ <;> exact ih

theorem flatten_step_keys (bs : Buffers) (r : OutRef) :
    (flatten_step bs r).map Prod.fst = bs.map Prod.fst := by
  cases hr : bufFind bs r with
  | none => rw [flatten_step_eq_none bs r hr]
  | some br =>
    cases hbp : br.parent with
    | none => rw [flatten_step_eq_root bs r br hr hbp]
    | some p =>
      rw [flatten_step_eq_parent bs r br p hr hbp]
      exact bufUpdate_keys bs r _

theorem flatten_fold_keys :
    ∀ (keys : List OutRef) (bs : Buffers),
      (keys.foldl flatten_step bs).map Prod.fst = bs.map Prod.fst := by
  intro keys
  induction keys with
  | nil => intro bs; rfl
  | cons k ks ih =>
    intro bs
    simp only [List.foldl_cons]
    rw [ih (flatten_step bs k), flatten_step_keys]

/-- After the flatten phase, every stored parent points at a root. -/
theorem flatten_rootTargets (bs : Buffers) (rank : OutRef → Nat)
    (hwf : ParentWF bs rank) (hrb : RankBound bs rank bs.length) :
    RootTargets (fix_lifetime_flatten bs) := by
  intro x b p hf hp
  obtain ⟨-, -, -, -, hall⟩ :=
    flatten_fold_inv rank bs.length (bs.map Prod.fst) bs rfl hwf hrb
  have hx : x ∈ (fix_lifetime_flatten bs).map Prod.fst := bufFind_mem_keys _ x b hf
  rw [fix_lifetime_flatten] at hx ⊢
  rw [flatten_fold_keys] at hx
  exact hall x hx b p hf hp

/-! The lifetime-extension phase of fix_lifetime. -/

theorem extend_step_eq_none (bs : Buffers) (r : OutRef)
    (h : bufFind bs r = none) : extend_step bs r = bs := by
  unfold extend_step
  simp only [h]

theorem extend_step_eq_noparent (bs : Buffers) (r : OutRef) (b : LogicalBuffer)
    (h : bufFind bs r = some b) (hp : b.parent = none) : extend_step bs r = bs := by
  unfold extend_step
  simp only [h, hp]

theorem extend_step_eq_noroot (bs : Buffers) (r : OutRef) (b : LogicalBuffer)
    (p : ParentDesc) (h : bufFind bs r = some b) (hp : b.parent = some p)
    (h2 : bufFind bs p.parent = none) : extend_step bs r = bs := by
  unfold extend_step
  simp only [h, hp, h2]

theorem extend_step_eq_update (bs : Buffers) (r : OutRef) (b : LogicalBuffer)
    (p : ParentDesc) (pb : LogicalBuffer) (h : bufFind bs r = some b)
    (hp : b.parent = some p) (hpb : bufFind bs p.parent = some pb) :
    extend_step bs r = bufUpdate bs p.parent (fun q =>
      { q with lifetime := { q.lifetime with
          birth := min b.lifetime.birth pb.lifetime.birth
          age := max b.lifetime.lifeEnd pb.lifetime.lifeEnd -
            min b.lifetime.birth pb.lifetime.birth } }) := by
  unfold extend_step
  simp only [h, hp, hpb]

/-- The updated root's lifetime is the union interval. -/
theorem extend_interval (b q : LogicalBuffer) :
    ({ q with lifetime := { q.lifetime with
        birth := min b.lifetime.birth q.lifetime.birth
        age := max b.lifetime.lifeEnd q.lifetime.lifeEnd -
          min b.lifetime.birth q.lifetime.birth } } : LogicalBuffer).lifetime.birth =
      min b.lifetime.birth q.lifetime.birth ∧
    ({ q with lifetime := { q.lifetime with
        birth := min b.lifetime.birth q.lifetime.birth
        age := max b.lifetime.lifeEnd q.lifetime.lifeEnd -
          min b.lifetime.birth q.lifetime.birth } } : LogicalBuffer).lifetime.lifeEnd =
      max b.lifetime.lifeEnd q.lifetime.lifeEnd := by
  constructor
  · rfl
  · have hle : min b.lifetime.birth q.lifetime.birth ≤
        max b.lifetime.lifeEnd q.lifetime.lifeEnd := by
      have h1 : q.lifetime.birth ≤ q.lifetime.lifeEnd := Nat.le_add_right _ _
      exact Nat.le_trans (Nat.min_le_right _ _)
        (Nat.le_trans h1 (Nat.le_max_right _ _))
    show min b.lifetime.birth q.lifetime.birth +
        (max b.lifetime.lifeEnd q.lifetime.lifeEnd -
         min b.lifetime.birth q.lifetime.birth) = _
    omega

/-- A buffer that has a parent is untouched by any extension step, the
parent targets being parentless. -/
theorem extend_child_unchanged (bs : Buffers) (hRT : RootTargets bs) (x : OutRef)
    (b : LogicalBuffer) (q : ParentDesc) (hx : bufFind bs x = some b)
    (hbp : b.parent = some q) (r : OutRef) :
    bufFind (extend_step bs r) x = some b := by
  cases hr : bufFind bs r with
  | none => rw [extend_step_eq_none bs r hr]; exact hx
  | some br =>
    cases hbrp : br.parent with
    | none => rw [extend_step_eq_noparent bs r br hr hbrp]; exact hx
    | some pr =>
      cases hprb : bufFind bs pr.parent with
      | none => rw [extend_step_eq_noroot bs r br pr hr hbrp hprb]; exact hx
      | some prb =>
        rw [extend_step_eq_update bs r br pr prb hr hbrp hprb]
        by_cases hxk : x = pr.parent
        · obtain ⟨pb2, hpb2, hpb2root⟩ := hRT r br pr hr hbrp
          rw [← hxk] at hpb2
          rw [hx] at hpb2
          cases hpb2
          exact absurd hbp (by rw [hpb2root]; exact fun hc => Option.noConfusion hc)
        · rw [bufFind_bufUpdate_ne _ _ _ _ hxk]
          exact hx

/-- A parentless buffer stays parentless under extension, and its lifetime
interval only grows. -/
theorem extend_root_mono (bs : Buffers) (x : OutRef) (b : LogicalBuffer)
    (hx : bufFind bs x = some b) (hroot : b.parent = none) (r : OutRef) :
    ∃ b', bufFind (extend_step bs r) x = some b' ∧ b'.parent = none ∧
      b'.lifetime.birth ≤ b.lifetime.birth ∧
      b.lifetime.lifeEnd ≤ b'.lifetime.lifeEnd := by
  cases hr : bufFind bs r with
  | none =>
    rw [extend_step_eq_none bs r hr]
    exact ⟨b, hx, hroot, Nat.le_refl _, Nat.le_refl _⟩
  | some br =>
    cases hbrp : br.parent with
    | none =>
      rw [extend_step_eq_noparent bs r br hr hbrp]
      exact ⟨b, hx, hroot, Nat.le_refl _, Nat.le_refl _⟩
    | some pr =>
      cases hprb : bufFind bs pr.parent with
      | none =>
        rw [extend_step_eq_noroot bs r br pr hr hbrp hprb]
        exact ⟨b, hx, hroot, Nat.le_refl _, Nat.le_refl _⟩
      | some prb =>
        rw [extend_step_eq_update bs r br pr prb hr hbrp hprb]
        by_cases hxk : x = pr.parent
        · rw [hxk, bufFind_bufUpdate_self, hprb]
          simp only [Option.map_some']
          have hb : b = prb := by
            rw [hxk, hprb] at hx
            cases hx
            rfl
          subst hb
          refine ⟨_, rfl, hroot, ?_, ?_⟩
          · rw [(extend_interval br b).1]
            exact Nat.min_le_right _ _
          · rw [(extend_interval br b).2]
            exact Nat.le_max_right _ _
        · rw [bufFind_bufUpdate_ne _ _ _ _ hxk]
          exact ⟨b, hx, hroot, Nat.le_refl _, Nat.le_refl _⟩

theorem rootTargets_extend_step (bs : Buffers) (hRT : RootTargets bs) (r : OutRef) :
    RootTargets (extend_step bs r) := by
  intro x b' p' hf' hp'
  cases hr : bufFind bs r with
  | none =>
    rw [extend_step_eq_none bs r hr] at hf' ⊢
    exact hRT x b' p' hf' hp'
  | some br =>
    cases hbrp : br.parent with
    | none =>
      rw [extend_step_eq_noparent bs r br hr hbrp] at hf' ⊢
      exact hRT x b' p' hf' hp'
    | some pr =>
      cases hprb : bufFind bs pr.parent with
      | none =>
        rw [extend_step_eq_noroot bs r br pr hr hbrp hprb] at hf' ⊢
        exact hRT x b' p' hf' hp'
      | some prb =>
        rw [extend_step_eq_update bs r br pr prb hr hbrp hprb] at hf' ⊢
        obtain ⟨b, hb, hcase⟩ := bufFind_bufUpdate_inv bs pr.parent x _ b' hf'
        have hbp : b.parent = some p' := by
          rcases hcase with hbb | ⟨hxk, hbb⟩
          · rw [← hbb]; exact hp'
          · rw [hbb] at hp'; exact hp'
        obtain ⟨pb, hpb, hpbroot⟩ := hRT x b p' hb hbp
        by_cases hpk : p'.parent = pr.parent
        · rw [hpk] at hpb ⊢
          rw [bufFind_bufUpdate_self, hpb]
          simp only [Option.map_some']
          exact ⟨_, rfl, by simpa using hpbroot⟩
        · rw [bufFind_bufUpdate_ne _ _ _ _ hpk]
          exact ⟨pb, hpb, hpbroot⟩

theorem contained_extend_self (bs : Buffers) (hRT : RootTargets bs) (x : OutRef) :
    Contained (extend_step bs x) x := by
  intro b' p' pb' hf' hp' hpb'
  cases hr : bufFind bs x with
  | none =>
    rw [extend_step_eq_none bs x hr] at hf'
    rw [hr] at hf'
    cases hf'
  | some b =>
    cases hbp : b.parent with
    | none =>
      rw [extend_step_eq_noparent bs x b hr hbp] at hf'
      rw [hr] at hf'
      cases hf'
      rw [hbp] at hp'
      cases hp'
    | some p =>
      cases hpbf : bufFind bs p.parent with
      | none =>
        rw [extend_step_eq_noroot bs x b p hr hbp hpbf] at hf' hpb'
        rw [hr] at hf'
        cases hf'
        rw [hbp] at hp'
        cases hp'
        rw [hpbf] at hpb'
        cases hpb'
      | some pb =>
        have hxk : x ≠ p.parent := by
          intro hc
          obtain ⟨pb2, hpb2, hpb2root⟩ := hRT x b p hr hbp
          rw [← hc] at hpb2
          rw [hr] at hpb2
          cases hpb2
          rw [hbp] at hpb2root
          exact Option.noConfusion hpb2root
        rw [extend_step_eq_update bs x b p pb hr hbp hpbf] at hf' hpb'
        rw [bufFind_bufUpdate_ne _ _ _ _ hxk, hr] at hf'
        cases hf'
        rw [hbp] at hp'
        cases hp'
        rw [bufFind_bufUpdate_self, hpbf] at hpb'
        simp only [Option.map_some'] at hpb'
        cases hpb'
        constructor
        · rw [(extend_interval b' pb).1]
          exact Nat.min_le_left _ _
        · rw [(extend_interval b' pb).2]
          exact Nat.le_max_left _ _

theorem contained_extend_preserved (bs : Buffers) (hRT : RootTargets bs) (x : OutRef)
    (hc : Contained bs x) (r : OutRef) : Contained (extend_step bs r) x := by
  intro b' p' pb' hf' hp' hpb'
  cases hbx : bufFind bs x with
  | none =>
    have : ∃ b0, bufFind bs x = some b0 := by
      cases hr : bufFind bs r with
      | none => rw [extend_step_eq_none bs r hr] at hf'; exact ⟨b', hf'⟩
      | some br =>
        cases hbrp : br.parent with
        | none => rw [extend_step_eq_noparent bs r br hr hbrp] at hf'; exact ⟨b', hf'⟩
        | some pr =>
          cases hprb : bufFind bs pr.parent with
          | none =>
            rw [extend_step_eq_noroot bs r br pr hr hbrp hprb] at hf'
            exact ⟨b', hf'⟩
          | some prb =>
            rw [extend_step_eq_update bs r br pr prb hr hbrp hprb] at hf'
            obtain ⟨b0, hb0, -⟩ := bufFind_bufUpdate_inv bs pr.parent x _ b' hf'
            exact ⟨b0, hb0⟩
    obtain ⟨b0, hb0⟩ := this
    rw [hbx] at hb0
    cases hb0
  | some b =>
    cases hbparent : b.parent with
    | none =>
      obtain ⟨b2, hb2, hb2root, -, -⟩ := extend_root_mono bs x b hbx hbparent r
      rw [hf'] at hb2
      cases hb2
      rw [hb2root] at hp'
      cases hp'
    | some q =>
      have hfx : bufFind (extend_step bs r) x = some b :=
        extend_child_unchanged bs hRT x b q hbx hbparent r
      rw [hf'] at hfx
      cases hfx
      have hqp : q = p' := by
        rw [hbparent] at hp'
        cases hp'
        rfl
      subst hqp
      obtain ⟨pb, hpb, hpbroot⟩ := hRT x b' q hbx hbparent
      obtain ⟨pb2, hpb2, -, hmono1, hmono2⟩ := extend_root_mono bs q.parent pb hpb hpbroot r
      rw [hpb'] at hpb2
      cases hpb2
      obtain ⟨h1, h2⟩ := hc b' q pb hbx hbparent hpb
      exact ⟨Nat.le_trans hmono1 h1, Nat.le_trans h2 hmono2⟩

theorem extend_fold_inv :
    ∀ (keys : List OutRef) (bs : Buffers), RootTargets bs →
      RootTargets (keys.foldl extend_step bs) ∧
      (∀ x, Contained bs x → Contained (keys.foldl extend_step bs) x) ∧
      (∀ k, k ∈ keys → Contained (keys.foldl extend_step bs) k) := by
  intro keys
  induction keys with
  | nil =>
    intro bs hRT
    exact ⟨hRT, fun x h => h, fun k hk => absurd hk (List.not_mem_nil k)⟩
  | cons k ks ih =>
    intro bs hRT
    have hRT1 := rootTargets_extend_step bs hRT k
    obtain ⟨hRTf, hpres, hall⟩ := ih (extend_step bs k) hRT1
    refine ⟨by simpa using hRTf, ?_, ?_⟩
    · intro x hx
      simp only [List.foldl_cons]
      exact hpres x (contained_extend_preserved bs hRT x hx k)
    · intro k' hk'
      simp only [List.foldl_cons]
      rcases List.mem_cons.mp hk' with hk' | hk'
      · subst hk'
        exact hpres k' (contained_extend_self bs hRT k')
      · exact hall k' hk'

theorem extend_step_keys (bs : Buffers) (r : OutRef) :
    (extend_step bs r).map Prod.fst = bs.map Prod.fst := by
  cases hr : bufFind bs r with
  | none => rw [extend_step_eq_none bs r hr]
  | some br =>
    cases hbrp : br.parent with
    | none => rw [extend_step_eq_noparent bs r br hr hbrp]
    | some pr =>
      cases hprb : bufFind bs pr.parent with
      | none => rw [extend_step_eq_noroot bs r br pr hr hbrp hprb]
      | some prb =>
        rw [extend_step_eq_update bs r br pr prb hr hbrp hprb]
        exact bufUpdate_keys bs pr.parent _

theorem extend_fold_keys :
    ∀ (keys : List OutRef) (bs : Buffers),
      (keys.foldl extend_step bs).map Prod.fst = bs.map Prod.fst := by
  intro keys
  induction keys with
  | nil => intro bs; rfl
  | cons k ks ih =>
    intro bs
    simp only [List.foldl_cons]
    rw [ih (extend_step bs k), extend_step_keys]

/-- Claim C5: after fix_lifetime, every buffer with a parent points
directly at a parentless root, and every root's lifetime interval contains
the interval of each buffer aliasing it. -/
theorem claim_C5 (bs : Buffers) (rank : OutRef → Nat)
    (hwf : ParentWF bs rank) (hrb : RankBound bs rank bs.length) :
    (∀ r b p, bufFind (fix_lifetime bs) r = some b → b.parent = some p →
        ∃ pb, bufFind (fix_lifetime bs) p.parent = some pb ∧ pb.parent = none) ∧
    (∀ r b p pb, bufFind (fix_lifetime bs) r = some b → b.parent = some p →
        bufFind (fix_lifetime bs) p.parent = some pb →
        pb.lifetime.birth ≤ b.lifetime.birth ∧
        b.lifetime.lifeEnd ≤ pb.lifetime.lifeEnd) := by
  have hRT : RootTargets (fix_lifetime_flatten bs) := flatten_rootTargets bs rank hwf hrb
  have hfold := extend_fold_inv ((fix_lifetime_flatten bs).map Prod.fst)
    (fix_lifetime_flatten bs) hRT
  obtain ⟨hRTf, -, hall⟩ := hfold
  constructor
  · intro r b p hf hp
    exact hRTf r b p (by exact hf) (by exact hp)
  · intro r b p pb hf hp hpb
    have hr : r ∈ (fix_lifetime bs).map Prod.fst := bufFind_mem_keys _ r b hf
    have hkeys : (fix_lifetime bs).map Prod.fst =
        (fix_lifetime_flatten bs).map Prod.fst := by
      unfold fix_lifetime
      exact extend_fold_keys _ _
    rw [hkeys] at hr
    exact hall r hr b p pb hf hp hpb

theorem bufFind_mem_pair (bs : Buffers) (r : OutRef) (b : LogicalBuffer)
    (h : bufFind bs r = some b) : (r, b) ∈ bs := by
  induction bs with
  | nil => cases h
  | cons p rest ih =>
    by_cases hp : p.1 = r
    · rw [bufFind, if_pos hp] at h
      cases h
      rw [← hp]
      exact List.mem_cons_self p rest
    · rw [bufFind, if_neg hp] at h
      exact List.mem_cons_of_mem p (ih h)

/-- Executable check implying ParentWF. -/
def parentWFb (bs : Buffers) (rank : OutRef → Nat) : Bool :=
  bs.all (fun e =>
    match e.2.parent with
    | some p => (bufFind bs p.parent).isSome && decide (rank p.parent < rank e.1)
    | none => true)

theorem parentWF_of_b (bs : Buffers) (rank : OutRef → Nat)
    (h : parentWFb bs rank = true) : ParentWF bs rank := by
  intro r b p hf hp
  have hmem := bufFind_mem_pair bs r b hf
  have he := List.all_eq_true.mp h (r, b) hmem
  rw [hp] at he
  simp only [Bool.and_eq_true, decide_eq_true_eq] at he
  exact ⟨Option.isSome_iff_exists.mp he.1, he.2⟩

/-- Executable check implying RankBound. -/
def rankBoundB (bs : Buffers) (rank : OutRef → Nat) (N : Nat) : Bool :=
  bs.all (fun e => decide (rank e.1 < N))

theorem rankBound_of_b (bs : Buffers) (rank : OutRef → Nat) (N : Nat)
    (h : rankBoundB bs rank N = true) : RankBound bs rank N := by
  intro r b hf
  have hmem := bufFind_mem_pair bs r b hf
  have he := List.all_eq_true.mp h (r, b) hmem
  simpa using he

def bufC5a : LogicalBuffer :=
  { id := 0, owner := ⟨1, 0⟩, memory_location := MemLoc.mem_data
    lifetime := { birth := 1, age := 2, used_count := 0 }
    parent := some ⟨⟨2, 0⟩, [0]⟩ }

def bufC5b : LogicalBuffer :=
  { id := 1, owner := ⟨2, 0⟩, memory_location := MemLoc.mem_data
    lifetime := { birth := 2, age := 3, used_count := 0 }
    parent := some ⟨⟨3, 0⟩, [2]⟩ }

def bufC5c : LogicalBuffer :=
  { id := 2, owner := ⟨3, 0⟩, memory_location := MemLoc.mem_data
    lifetime := { birth := 3, age := 1, used_count := 0 }
    parent := none }

def bufsC5 : Buffers := [(⟨1, 0⟩, bufC5a), (⟨2, 0⟩, bufC5b), (⟨3, 0⟩, bufC5c)]

def rankC5 : OutRef → Nat := fun r => 3 - r.node

theorem claim_C5_witness :
    (∀ r b p, bufFind (fix_lifetime bufsC5) r = some b → b.parent = some p →
        ∃ pb, bufFind (fix_lifetime bufsC5) p.parent = some pb ∧ pb.parent = none) ∧
    (∀ r b p pb, bufFind (fix_lifetime bufsC5) r = some b → b.parent = some p →
        bufFind (fix_lifetime bufsC5) p.parent = some pb →
        pb.lifetime.birth ≤ b.lifetime.birth ∧
        b.lifetime.lifeEnd ≤ pb.lifetime.lifeEnd) :=
  claim_C5 bufsC5 rankC5
    (parentWF_of_b bufsC5 rankC5 (by decide))
    (rankBound_of_b bufsC5 rankC5 bufsC5.length (by decide))

/-! Machinery for claim C8: the physical buffer pool. -/

theorem mem_parentless (bs : Buffers) (k : OutRef) (b : LogicalBuffer)
    (hf : bufFind bs k = some b) (hp : b.parent = none) : k ∈ parentless_keys bs := by
  have hmem := bufFind_mem_pair bs k b hf
  unfold parentless_keys
  refine List.mem_map.mpr ⟨(k, b), ?_, rfl⟩
  refine List.mem_filter.mpr ⟨hmem, ?_⟩
  simp [hp]

theorem idxOfKey_spec :
    ∀ (l : List OutRef) (k : OutRef), k ∈ l →
      ∃ i, idxOfKey l k = some i ∧ l.get? i = some k := by
  intro l
  induction l with
  | nil => intro k hk; cases hk
  | cons x xs ih =>
    intro k hk
    by_cases hx : x = k
    · exact ⟨0, by simp [idxOfKey, hx], by simp [hx]⟩
    · have hk' : k ∈ xs := by
        rcases List.mem_cons.mp hk with h | h
        · exact absurd h.symm hx
        · exact h
      obtain ⟨i, h1, h2⟩ := ih k hk'
      exact ⟨i + 1, by simp [idxOfKey, hx, h1], by simpa using h2⟩

theorem idxOfKey_get :
    ∀ (l : List OutRef) (k : OutRef) (i : Nat), idxOfKey l k = some i →
      l.get? i = some k := by
  intro l
  induction l with
  | nil => intro k i h; cases h
  | cons x xs ih =>
    intro k i h
    by_cases hx : x = k
    · rw [idxOfKey, if_pos hx] at h
      cases h
      simpa using hx
    · rw [idxOfKey, if_neg hx] at h
      cases hi : idxOfKey xs k with
      | none => rw [hi] at h; cases h
      | some j =>
        rw [hi] at h
        simp only [Option.map_some'] at h
        cases h
        simpa using ih k j hi

theorem mem_enumFrom_of_get :
    ∀ (l : List OutRef) (n i : Nat) (a : OutRef), l.get? i = some a →
      (n + i, a) ∈ l.enumFrom n := by
  intro l
  induction l with
  | nil => intro n i a h; cases h
  | cons x xs ih =>
    intro n i a h
    cases i with
    | zero =>
      simp only [List.get?] at h
      cases h
      simp [List.enumFrom]
    | succ j =>
      simp only [List.get?] at h
      have := ih (n + 1) j a h
      have harith : n + 1 + j = n + (j + 1) := by omega
      rw [harith] at this
      simp only [List.enumFrom, List.mem_cons]
      right
      exact this

theorem mem_enum_of_get (l : List OutRef) (i : Nat) (a : OutRef)
    (h : l.get? i = some a) : (i, a) ∈ l.enum := by
  have := mem_enumFrom_of_get l 0 i a h
  simpa [List.enum] using this

theorem enumFrom_map_fst (l : List OutRef) :
    ∀ n, (l.enumFrom n).map Prod.fst = List.range' n l.length := by
  induction l with
  | nil => intro n; rfl
  | cons x xs ih =>
    intro n
    simp [List.enumFrom, List.range', ih]

theorem enumFrom_map_snd (l : List OutRef) :
    ∀ n, (l.enumFrom n).map Prod.snd = l := by
  induction l with
  | nil => intro n; rfl
  | cons x xs ih =>
    intro n
    simp [List.enumFrom, ih]

/-- Claim C8: make_physical_buffers creates exactly one physical buffer per
parentless logical buffer with ids 0, 1, 2, ... in order, binds every
logical buffer to its root's physical buffer, and two buffers share a
physical id exactly when they share their alias root. -/
theorem claim_C8 (bs : Buffers)
    (hroots : ∀ r b p, bufFind bs r = some b → b.parent = some p →
        ∃ pb, bufFind bs p.parent = some pb ∧ pb.parent = none) :
    ((make_physical_buffers bs).map PhysicalBuffer.id =
        List.range (parentless_keys bs).length) ∧
    ((make_physical_buffers bs).map PhysicalBuffer.owner = parentless_keys bs) ∧
    (∀ r b, bufFind bs r = some b →
        ∃ i, physical_id_of bs r = some i ∧
          (⟨i, root_of bs r⟩ : PhysicalBuffer) ∈ make_physical_buffers bs) ∧
    ((bs.map Prod.fst).Nodup →
      ∀ r1 r2 b1 b2, bufFind bs r1 = some b1 → bufFind bs r2 = some b2 →
        (physical_id_of bs r1 = physical_id_of bs r2 ↔
         root_of bs r1 = root_of bs r2)) := by
  have hrootmem : ∀ r b, bufFind bs r = some b → root_of bs r ∈ parentless_keys bs := by
    intro r b hf
    cases hp : b.parent with
    | none =>
      have : root_of bs r = r := by unfold root_of; simp only [hf, hp]
      rw [this]
      exact mem_parentless bs r b hf hp
    | some p =>
      have : root_of bs r = p.parent := by unfold root_of; simp only [hf, hp]
      rw [this]
      obtain ⟨pb, hpb, hpbroot⟩ := hroots r b p hf hp
      exact mem_parentless bs p.parent pb hpb hpbroot
  refine ⟨?_, ?_, ?_, ?_⟩
  · unfold make_physical_buffers
    have h1 : ((parentless_keys bs).enum.map (fun p => (⟨p.1, p.2⟩ : PhysicalBuffer))).map
        PhysicalBuffer.id = (parentless_keys bs).enum.map Prod.fst := by
      rw [List.map_map]; rfl
    rw [h1, List.enum, enumFrom_map_fst]
    rw [List.range_eq_range']
  · unfold make_physical_buffers
    have h1 : ((parentless_keys bs).enum.map (fun p => (⟨p.1, p.2⟩ : PhysicalBuffer))).map
        PhysicalBuffer.owner = (parentless_keys bs).enum.map Prod.snd := by
      rw [List.map_map]; rfl
    rw [h1, List.enum, enumFrom_map_snd]
  · intro r b hf
    obtain ⟨i, hidx, hget⟩ := idxOfKey_spec (parentless_keys bs) (root_of bs r)
      (hrootmem r b hf)
    refine ⟨i, hidx, ?_⟩
    unfold make_physical_buffers
    exact List.mem_map.mpr ⟨(i, root_of bs r), mem_enum_of_get _ i _ hget, rfl⟩
  · intro hnodup r1 r2 b1 b2 hf1 hf2
    constructor
    · intro heq
      obtain ⟨i1, hidx1, hget1⟩ := idxOfKey_spec (parentless_keys bs) (root_of bs r1)
        (hrootmem r1 b1 hf1)
      obtain ⟨i2, hidx2, hget2⟩ := idxOfKey_spec (parentless_keys bs) (root_of bs r2)
        (hrootmem r2 b2 hf2)
      unfold physical_id_of at heq
      rw [hidx1, hidx2] at heq
      cases heq
      rw [hget1] at hget2
      exact Option.some_inj.mp hget2
    · intro heq
      unfold physical_id_of
      rw [heq]

/-- Executable check implying the root-targets property. -/
def rootTargetsB (bs : Buffers) : Bool :=
  bs.all (fun e =>
    match e.2.parent with
    | some p =>
      match bufFind bs p.parent with
      | some pb => decide (pb.parent = none)
      | none => false
    | none => true)

theorem rootTargets_of_b (bs : Buffers) (h : rootTargetsB bs = true) :
    ∀ r b p, bufFind bs r = some b → b.parent = some p →
      ∃ pb, bufFind bs p.parent = some pb ∧ pb.parent = none := by
  intro r b p hf hp
  have hmem := bufFind_mem_pair bs r b hf
  have he := List.all_eq_true.mp h (r, b) hmem
  simp only [hp] at he
  cases hpb : bufFind bs p.parent with
  | none =>
    simp only [hpb] at he
    exact Bool.noConfusion he
  | some pb =>
    simp only [hpb, decide_eq_true_eq] at he
    exact ⟨pb, rfl, he⟩

def bufC8a : LogicalBuffer :=
  { id := 0, owner := ⟨1, 0⟩, memory_location := MemLoc.mem_data
    lifetime := { birth := 1, age := 2, used_count := 0 }
    parent := some ⟨⟨3, 0⟩, [0]⟩ }

def bufC8b : LogicalBuffer :=
  { id := 1, owner := ⟨2, 0⟩, memory_location := MemLoc.mem_data
    lifetime := { birth := 2, age := 1, used_count := 0 }
    parent := some ⟨⟨3, 0⟩, [2]⟩ }

def bufC8c : LogicalBuffer :=
  { id := 2, owner := ⟨3, 0⟩, memory_location := MemLoc.mem_data
    lifetime := { birth := 1, age := 3, used_count := 0 }
    parent := none }

def bufsC8 : Buffers := [(⟨1, 0⟩, bufC8a), (⟨2, 0⟩, bufC8b), (⟨3, 0⟩, bufC8c)]

theorem claim_C8_witness :
    ((make_physical_buffers bufsC8).map PhysicalBuffer.id =
        List.range (parentless_keys bufsC8).length) ∧
    ((make_physical_buffers bufsC8).map PhysicalBuffer.owner = parentless_keys bufsC8) ∧
    (∀ r b, bufFind bufsC8 r = some b →
        ∃ i, physical_id_of bufsC8 r = some i ∧
          (⟨i, root_of bufsC8 r⟩ : PhysicalBuffer) ∈ make_physical_buffers bufsC8) ∧
    ((bufsC8.map Prod.fst).Nodup →
      ∀ r1 r2 b1 b2, bufFind bufsC8 r1 = some b1 → bufFind bufsC8 r2 = some b2 →
        (physical_id_of bufsC8 r1 = physical_id_of bufsC8 r2 ↔
         root_of bufsC8 r1 = root_of bufsC8 r2)) :=
  claim_C8 bufsC8 (rootTargets_of_b bufsC8 (by decide))

/-! Machinery for claim C4: the concat demotion rule of the alias pass. -/

theorem clearNode_mem (cl : List NodeId) (m n : NodeId) :
    n ∈ clearNode cl m ↔ n ∈ cl ∨ n = m := by
  unfold clearNode
  by_cases hm : m ∈ cl
  · rw [if_pos hm]
    constructor
    · exact Or.inl
    · rintro (h | h)
      · exact h
      · rw [h]; exact hm
  · rw [if_neg hm]
    rw [List.mem_cons]
    tauto

/-- The concat branch never touches the buffer map. -/
theorem concat_step_buffers (g : Graph) (st : AliasState) (n : NodeId) :
    (concat_step g st n).buffers = st.buffers := by
  unfold concat_step
  split <;> rfl

/-- The bitcast branch clears only the node itself. -/
theorem bitcast_step_cleared (g : Graph) (st : AliasState) (n : NodeId) :
    (bitcast_step g st n).cleared = st.cleared ∨
    (bitcast_step g st n).cleared = clearNode st.cleared n := by
  cases hin : (g.node n).inputs with
  | nil =>
    unfold bitcast_step
    rw [hin]
    exact Or.inl rfl
  | cons inref rest =>
    unfold bitcast_step
    rw [hin]
    cases hfi : bufFind st.buffers inref with
    | none =>
      simp only [hfi]
      exact Or.inl trivial
    | some inb =>
      cases hfo : bufFind st.buffers ⟨n, 0⟩ with
      | none =>
        simp only [hfi, hfo]
        exact Or.inl trivial
      | some outb =>
        by_cases hpromo : outb.memory_location = MemLoc.mem_output ∧
            inb.memory_location = MemLoc.mem_data
        · have hinloc : bufFind (bufUpdate st.buffers inref
              (fun b => { b with memory_location := MemLoc.mem_output })) inref =
              some { inb with memory_location := MemLoc.mem_output } := by
            rw [bufFind_bufUpdate_self, hfi]; rfl
          have hcond : ¬ (outb.memory_location = MemLoc.mem_output ∧
              ((MemLoc.mem_output : MemLoc) = MemLoc.mem_input ∨
               (MemLoc.mem_output : MemLoc) = MemLoc.mem_rdata)) := by
            rintro ⟨-, h | h⟩ <;> exact MemLoc.noConfusion h
          simp only [hfi, hfo, if_pos hpromo, hinloc, if_neg hcond]
          exact Or.inr trivial
        · simp only [hfi, hfo, if_neg hpromo]
          split
          · exact Or.inl rfl
          · exact Or.inr rfl

/-- The bitcast branch changes a buffer's memory location only from data to
output, and never changes the buffer domain; hence the concat tag test is
invariant under it. -/
theorem concatLocOk_update_parent (g : Graph) (bs : Buffers) (r : OutRef)
    (d : Option ParentDesc) (x : OutRef) :
    concatLocOk g (bufUpdate bs r (fun b => { b with parent := d })) x =
    concatLocOk g bs x := by
  unfold concatLocOk
  by_cases hx : x = r
  · subst hx
    rw [bufFind_bufUpdate_self]
    cases hb : bufFind bs x with
    | none => rfl
    | some b => rfl
  · rw [bufFind_bufUpdate_ne _ _ _ _ hx]

theorem concatLocOk_promote (g : Graph) (bs : Buffers) (inref : OutRef)
    (inb : LogicalBuffer) (hf : bufFind bs inref = some inb)
    (hd : inb.memory_location = MemLoc.mem_data) (x : OutRef) :
    concatLocOk g
      (bufUpdate bs inref (fun b => { b with memory_location := MemLoc.mem_output })) x =
    concatLocOk g bs x := by
  unfold concatLocOk
  by_cases hx : x = inref
  · subst hx
    rw [bufFind_bufUpdate_self, hf]
    simp [hd]
  · rw [bufFind_bufUpdate_ne _ _ _ _ hx]

theorem concatLocOk_bitcast_step (g : Graph) (st : AliasState) (m : NodeId) (x : OutRef) :
    concatLocOk g (bitcast_step g st m).buffers x = concatLocOk g st.buffers x := by
  cases hin : (g.node m).inputs with
  | nil =>
    unfold bitcast_step
    rw [hin]
  | cons inref rest =>
    unfold bitcast_step
    rw [hin]
    cases hfi : bufFind st.buffers inref with
    | none => simp only [hfi]
    | some inb =>
      cases hfo : bufFind st.buffers ⟨m, 0⟩ with
      | none => simp only [hfi, hfo]
      | some outb =>
        by_cases hpromo : outb.memory_location = MemLoc.mem_output ∧
            inb.memory_location = MemLoc.mem_data
        · have hinloc : bufFind (bufUpdate st.buffers inref
              (fun b => { b with memory_location := MemLoc.mem_output })) inref =
              some { inb with memory_location := MemLoc.mem_output } := by
            rw [bufFind_bufUpdate_self, hfi]; rfl
          have hcond : ¬ (outb.memory_location = MemLoc.mem_output ∧
              ((MemLoc.mem_output : MemLoc) = MemLoc.mem_input ∨
               (MemLoc.mem_output : MemLoc) = MemLoc.mem_rdata)) := by
            rintro ⟨-, h | h⟩ <;> exact MemLoc.noConfusion h
          have hps := concatLocOk_promote g st.buffers inref inb hfi hpromo.2 x
          simp only [hfi, hfo, if_pos hpromo, hinloc, if_neg hcond]
          rw [concatLocOk_update_parent, hps]
        · simp only [hfi, hfo, if_neg hpromo]
          split
          · rfl
          · rw [concatLocOk_update_parent]

theorem concatLocOk_alias_step (g : Graph) (st : AliasState) (m : NodeId) (x : OutRef) :
    concatLocOk g (alias_step g st m).buffers x = concatLocOk g st.buffers x := by
  unfold alias_step
  by_cases hb : (g.node m).opcode = Opcode.bitcast
  · rw [if_pos hb]
    exact concatLocOk_bitcast_step g st m x
  · rw [if_neg hb]
    by_cases hc : (g.node m).opcode = Opcode.concat
    · rw [if_pos hc, concat_step_buffers]
    · rw [if_neg hc]

theorem concatCond_alias_step (g : Graph) (st : AliasState) (m : NodeId) (n : NodeId) :
    concatCond g (alias_step g st m).buffers n = concatCond g st.buffers n := by
  unfold concatCond
  cases hin : (g.node n).inputs with
  | nil => rfl
  | cons in0 rest =>
    have hall : ∀ (l : List OutRef),
        (l.all (fun inref => concatLocOk g (alias_step g st m).buffers inref)) =
        (l.all (fun inref => concatLocOk g st.buffers inref)) := by
      intro l
      induction l with
      | nil => rfl
      | cons a as iha =>
        simp only [List.all_cons, concatLocOk_alias_step g st m a, iha]
    rw [hall]

/-- Membership in the cleared set after one alias step, for a concat node. -/
theorem alias_step_cleared_concat (g : Graph) (st : AliasState) (m n : NodeId)
    (hop : (g.node n).opcode = Opcode.concat) :
    (n ∈ (alias_step g st m).cleared ↔
      n ∈ st.cleared ∨ (m = n ∧ concatCond g st.buffers n = true)) := by
  unfold alias_step
  by_cases hb : (g.node m).opcode = Opcode.bitcast
  · rw [if_pos hb]
    have hmn : m ≠ n := by
      intro hc
      rw [hc, hop] at hb
      exact Opcode.noConfusion hb
    rcases bitcast_step_cleared g st m with hcl | hcl
    · rw [hcl]
      constructor
      · exact Or.inl
      · rintro (h | ⟨h, -⟩)
        · exact h
        · exact absurd h hmn
    · rw [hcl, clearNode_mem]
      constructor
      · rintro (h | h)
        · exact Or.inl h
        · exact absurd h.symm hmn
      · rintro (h | ⟨h, -⟩)
        · exact Or.inl h
        · exact absurd h hmn
  · rw [if_neg hb]
    by_cases hc : (g.node m).opcode = Opcode.concat
    · rw [if_pos hc]
      unfold concat_step
      by_cases hcond : concatCond g st.buffers m = true
      · rw [if_pos hcond]
        simp only
        rw [clearNode_mem]
        constructor
        · rintro (h | h)
          · exact Or.inl h
          · subst h
            exact Or.inr ⟨rfl, hcond⟩
        · rintro (h | ⟨h, -⟩)
          · exact Or.inl h
          · exact Or.inr h.symm
      · rw [if_neg hcond]
        constructor
        · exact Or.inl
        · rintro (h | ⟨h, h2⟩)
          · exact h
          · subst h
            exact absurd h2 hcond
    · rw [if_neg hc]
      have hmn : m ≠ n := by
        intro hcc
        rw [hcc, hop] at hc
        exact hc rfl
      constructor
      · exact Or.inl
      · rintro (h | ⟨h, -⟩)
        · exact h
        · exact absurd h hmn

theorem alias_fold_cleared_concat (g : Graph) (n : NodeId)
    (hop : (g.node n).opcode = Opcode.concat) :
    ∀ (l : List NodeId) (st : AliasState),
      (n ∈ (l.foldl (alias_step g) st).cleared ↔
        n ∈ st.cleared ∨ (n ∈ l ∧ concatCond g st.buffers n = true)) := by
  intro l
  induction l with
  | nil =>
    intro st
    simp
  | cons m ms ih =>
    intro st
    simp only [List.foldl_cons]
    rw [ih (alias_step g st m), alias_step_cleared_concat g st m n hop,
      concatCond_alias_step g st m n]
    rw [List.mem_cons]
    constructor
    · rintro ((h | ⟨h1, h2⟩) | ⟨h1, h2⟩)
      · exact Or.inl h
      · exact Or.inr ⟨Or.inl h1.symm, h2⟩
      · exact Or.inr ⟨Or.inr h1, h2⟩
    · rintro (h | ⟨h1 | h1, h2⟩)
      · exact Or.inl (Or.inl h)
      · exact Or.inl (Or.inr ⟨h1.symm, h2⟩)
      · exact Or.inr ⟨h1, h2⟩

/-- Claim C4: a concat is demoted to a view by the alias analyser exactly
when the axis condition holds, no input buffer is tagged input or rdata or
produced by a slice, and fewer than two of its consumers are concats. -/
theorem claim_C4 (g : Graph) (bufs : Buffers) (n : NodeId) (in0 : OutRef)
    (rest : List OutRef)
    (hop : (g.node n).opcode = Opcode.concat)
    (hin : (g.node n).inputs = in0 :: rest)
    (hagree : ∀ inref ∈ (g.node n).inputs,
        ((g.outShape inref).take (g.node n).axis : Shape) =
          (g.outShape in0).take (g.node n).axis)
    (hvisit : n ∈ visitOrder g) :
    (n ∈ (analyze_buffer_alias g bufs).cleared ↔
      (((g.node n).axis = 0 ∨
          ∀ inref ∈ (g.node n).inputs,
            ∀ d ∈ (g.outShape inref).take (g.node n).axis, d = 1) ∧
       (∀ inref ∈ (g.node n).inputs, ∃ b, bufFind bufs inref = some b ∧
           b.memory_location ≠ MemLoc.mem_input ∧
           b.memory_location ≠ MemLoc.mem_rdata ∧
           (g.node inref.node).opcode ≠ Opcode.slice) ∧
       ((g.consumers ⟨n, 0⟩).countP
          (fun c => decide ((g.node c.1).opcode = Opcode.concat)) < 2))) := by
  unfold analyze_buffer_alias
  rw [alias_fold_cleared_concat g n hop (visitOrder g)
    { buffers := bufs, cleared := [] }]
  simp only [List.not_mem_nil, false_or]
  constructor
  · rintro ⟨-, hcond⟩
    unfold concatCond at hcond
    rw [hin] at hcond
    simp only [Bool.and_eq_true, Bool.or_eq_true, decide_eq_true_eq,
      List.all_eq_true] at hcond
    obtain ⟨⟨h1, h2⟩, h3⟩ := hcond
    refine ⟨?_, ?_, h3⟩
    · rcases h1 with h1 | h1
      · exact Or.inl h1
      · right
        intro inref hmem d hd
        have hsh := hagree inref hmem
        rw [hsh] at hd
        exact h1 d hd
    · intro inref hmem
      have hlo := h2 inref (by rw [hin] at hmem; exact hmem)
      unfold concatLocOk at hlo
      cases hb : bufFind bufs inref with
      | none =>
        simp only [hb] at hlo
        exact Bool.noConfusion hlo
      | some b =>
        simp only [hb, Bool.and_eq_true, decide_eq_true_eq] at hlo
        exact ⟨b, rfl, hlo.1.1, hlo.1.2, hlo.2⟩
  · rintro ⟨h1, h2, h3⟩
    refine ⟨hvisit, ?_⟩
    unfold concatCond
    rw [hin]
    simp only [Bool.and_eq_true, Bool.or_eq_true, decide_eq_true_eq,
      List.all_eq_true]
    refine ⟨⟨?_, ?_⟩, h3⟩
    · rcases h1 with h1 | h1
      · exact Or.inl h1
      · right
        intro d hd
        exact h1 in0 (by rw [hin]; exact List.mem_cons_self in0 rest) d hd
    · intro inref hmem
      obtain ⟨b, hb, hb1, hb2, hb3⟩ := h2 inref (by rw [hin]; exact hmem)
      unfold concatLocOk
      rw [hb]
      simp [hb1, hb2, hb3]

def gC4 : Graph :=
  { nodes :=
      [ ⟨Opcode.input_node, true, [], [[1]], [f32], 0⟩
      , ⟨Opcode.other, true, [⟨0, 0⟩], [[2, 4]], [f32], 0⟩
      , ⟨Opcode.other, true, [⟨0, 0⟩], [[3, 4]], [f32], 0⟩
      , ⟨Opcode.concat, true, [⟨1, 0⟩, ⟨2, 0⟩], [[5, 4]], [f32], 0⟩
      , ⟨Opcode.output_node, true, [⟨3, 0⟩], [], [], 0⟩ ]
    outputs := [4] }

def bufsC4 : Buffers := (make_logical_buffers gC4).toOption.getD []

theorem claim_C4_witness :
    (gC4.node 3).opcode = Opcode.concat ∧
    (3 ∈ (analyze_buffer_alias gC4 bufsC4).cleared ↔
      (((gC4.node 3).axis = 0 ∨
          ∀ inref ∈ (gC4.node 3).inputs,
            ∀ d ∈ (gC4.outShape inref).take (gC4.node 3).axis, d = 1) ∧
       (∀ inref ∈ (gC4.node 3).inputs, ∃ b, bufFind bufsC4 inref = some b ∧
           b.memory_location ≠ MemLoc.mem_input ∧
           b.memory_location ≠ MemLoc.mem_rdata ∧
           (gC4.node inref.node).opcode ≠ Opcode.slice) ∧
       ((gC4.consumers ⟨3, 0⟩).countP
          (fun c => decide ((gC4.node c.1).opcode = Opcode.concat)) < 2))) :=
  ⟨rfl, claim_C4 gC4 bufsC4 3 ⟨1, 0⟩ [⟨2, 0⟩] rfl rfl (by decide) (by decide)⟩

/-! Machinery for claim C2: the allocation materialiser. -/

/-- The row-major strides: stride i is the product of the dimensions after
position i. -/
theorem to_strides_getD :
    ∀ (s : Shape) (i : Nat), i < s.length →
      (to_strides s).getD i 0 = shape_size (s.drop (i + 1)) := by
  intro s
  induction s with
  | nil => intro i hi; cases hi
  | cons d rest ih =>
    intro i hi
    cases i with
    | zero => rfl
    | succ j =>
      have hj : j < rest.length := Nat.lt_of_succ_lt_succ hi
      simpa [to_strides] using ih j hj

/-- Claim C2: assign_allocations records, for every visited node output with
a logical buffer, an allocation whose size is element bytes times the shape
product, whose parent shape is the alias root's shape exactly when the
buffer is aliased and the producer is not a bitcast, whose strides are the
row-major strides of the parent shape, and whose start adds the byte offset
of the parent begin to the root physical start exactly when aliased. -/
theorem claim_C2 (g : Graph) (bs : Buffers) (physStart : Nat → Nat) (n : NodeId)
    (port : Nat) (lbuf : LogicalBuffer)
    (hvisit : n ∈ visitOrder g)
    (hport : port < (g.node n).outShapes.length)
    (hfind : bufFind bs ⟨n, port⟩ = some lbuf) :
    ((⟨n, port⟩, mkAlloc g bs physStart ⟨n, port⟩ lbuf) : OutRef × BufferAllocation) ∈
        assign_allocations g bs physStart ∧
    (mkAlloc g bs physStart ⟨n, port⟩ lbuf).size =
      get_bytes (g.outType ⟨n, port⟩) * shape_size (g.outShape ⟨n, port⟩) ∧
    (mkAlloc g bs physStart ⟨n, port⟩ lbuf).shape = g.outShape ⟨n, port⟩ ∧
    (mkAlloc g bs physStart ⟨n, port⟩ lbuf).parent_shape =
      (if lbuf.parent.isSome ∧ (g.node n).opcode ≠ Opcode.bitcast
       then g.outShape (root_of bs ⟨n, port⟩) else g.outShape ⟨n, port⟩) ∧
    (mkAlloc g bs physStart ⟨n, port⟩ lbuf).strides =
      to_strides (mkAlloc g bs physStart ⟨n, port⟩ lbuf).parent_shape ∧
    (∀ i, i < (mkAlloc g bs physStart ⟨n, port⟩ lbuf).parent_shape.length →
      ((mkAlloc g bs physStart ⟨n, port⟩ lbuf).strides.getD i 0 =
        shape_size ((mkAlloc g bs physStart ⟨n, port⟩ lbuf).parent_shape.drop (i + 1)))) ∧
    (mkAlloc g bs physStart ⟨n, port⟩ lbuf).start =
      (match lbuf.parent with
       | some p => physStart ((physical_id_of bs ⟨n, port⟩).getD 0) +
           get_bytes (g.outType ⟨n, port⟩) *
             element_offset (mkAlloc g bs physStart ⟨n, port⟩ lbuf).strides p.start
       | none => physStart ((physical_id_of bs ⟨n, port⟩).getD 0)) := by
  refine ⟨?_, rfl, rfl, rfl, rfl, ?_, rfl⟩
  · unfold assign_allocations
    refine List.mem_flatMap.mpr ⟨n, hvisit, ?_⟩
    refine List.mem_filterMap.mpr ⟨port, List.mem_range.mpr hport, ?_⟩
    rw [hfind]
  · intro i hi
    exact to_strides_getD _ i hi

def lbufC2 : LogicalBuffer := (bufFind bufsC4 ⟨1, 0⟩).getD bufC5a

def physStartC2 : Nat → Nat := fun _ => 0

theorem claim_C2_witness :
    0 < (gC4.node 1).outShapes.length ∧
    (((⟨1, 0⟩, mkAlloc gC4 bufsC4 physStartC2 ⟨1, 0⟩ lbufC2) : OutRef × BufferAllocation) ∈
        assign_allocations gC4 bufsC4 physStartC2 ∧
    (mkAlloc gC4 bufsC4 physStartC2 ⟨1, 0⟩ lbufC2).size =
      get_bytes (gC4.outType ⟨1, 0⟩) * shape_size (gC4.outShape ⟨1, 0⟩) ∧
    (mkAlloc gC4 bufsC4 physStartC2 ⟨1, 0⟩ lbufC2).shape = gC4.outShape ⟨1, 0⟩ ∧
    (mkAlloc gC4 bufsC4 physStartC2 ⟨1, 0⟩ lbufC2).parent_shape =
      (if lbufC2.parent.isSome ∧ (gC4.node 1).opcode ≠ Opcode.bitcast
       then gC4.outShape (root_of bufsC4 ⟨1, 0⟩) else gC4.outShape ⟨1, 0⟩) ∧
    (mkAlloc gC4 bufsC4 physStartC2 ⟨1, 0⟩ lbufC2).strides =
      to_strides (mkAlloc gC4 bufsC4 physStartC2 ⟨1, 0⟩ lbufC2).parent_shape ∧
    (∀ i, i < (mkAlloc gC4 bufsC4 physStartC2 ⟨1, 0⟩ lbufC2).parent_shape.length →
      ((mkAlloc gC4 bufsC4 physStartC2 ⟨1, 0⟩ lbufC2).strides.getD i 0 =
        shape_size ((mkAlloc gC4 bufsC4 physStartC2 ⟨1, 0⟩ lbufC2).parent_shape.drop (i + 1)))) ∧
    (mkAlloc gC4 bufsC4 physStartC2 ⟨1, 0⟩ lbufC2).start =
      (match lbufC2.parent with
       | some p => physStartC2 ((physical_id_of bufsC4 ⟨1, 0⟩).getD 0) +
           get_bytes (gC4.outType ⟨1, 0⟩) *
             element_offset (mkAlloc gC4 bufsC4 physStartC2 ⟨1, 0⟩ lbufC2).strides p.start
       | none => physStartC2 ((physical_id_of bufsC4 ⟨1, 0⟩).getD 0))) :=
  ⟨by decide, claim_C2 gC4 bufsC4 physStartC2 1 0 lbufC2 (by decide) (by decide) (by decide)⟩

/-! Machinery for claim C7: the post-order DFS of the relay visitor emits a
duplicate-free topological order. -/

/-- Invariant of a DFS state: the visited set is duplicate-free and within
the node range; the emitted order is duplicate-free, visited, topologically
sorted (no later element is a producer of an earlier one), and all
producers of emitted nodes are visited. -/
def StInv (g : Graph) (st : DfsState) : Prop :=
  st.1.Nodup ∧ (∀ v ∈ st.1, v < g.nodes.length) ∧
  st.2.Nodup ∧ (∀ o ∈ st.2, o ∈ st.1) ∧
  st.2.Pairwise (fun a b => b ∉ g.prods a) ∧
  (∀ x ∈ st.2, ∀ m ∈ g.prods x, m ∈ st.1)

theorem nodup_bound_length (l : List Nat) (N : Nat) (hnd : l.Nodup)
    (hlt : ∀ v ∈ l, v < N) : l.length ≤ N := by
  have hcard : l.toFinset.card = l.length := List.toFinset_card_of_nodup hnd
  have hsub : l.toFinset ⊆ Finset.range N := by
    intro v hv
    rw [List.mem_toFinset] at hv
    exact Finset.mem_range.mpr (hlt v hv)
  have := Finset.card_le_card hsub
  rw [hcard, Finset.card_range] at this
  exact this

/-- The joint specification of dfsAux and dfsList, by induction on fuel:
the traversal preserves the state invariant, only grows the visited set,
appends only fresh nodes of bounded rank to the order, and marks the
requested nodes. -/
theorem dfs_spec (g : Graph) (rank : NodeId → Nat)
    (hclosed : ∀ n, n < g.nodes.length → ∀ m ∈ g.prods n, m < g.nodes.length)
    (hacyc : ∀ n, n < g.nodes.length → ∀ m ∈ g.prods n, rank m < rank n) :
    ∀ fuel : Nat,
      (∀ n st, StInv g st → n < g.nodes.length →
        g.nodes.length + 1 ≤ fuel + st.1.length →
        StInv g (dfsAux g fuel n st) ∧
        (∃ W, (dfsAux g fuel n st).1 = W ++ st.1) ∧
        (∃ Δ, (dfsAux g fuel n st).2 = st.2 ++ Δ ∧
          ∀ y ∈ Δ, y ∉ st.1 ∧ rank y ≤ rank n) ∧
        n ∈ (dfsAux g fuel n st).1) ∧
      (∀ L st, StInv g st → (∀ m ∈ L, m < g.nodes.length) →
        g.nodes.length + 1 ≤ fuel + st.1.length →
        StInv g (dfsList g fuel L st) ∧
        (∃ W, (dfsList g fuel L st).1 = W ++ st.1) ∧
        (∃ Δ, (dfsList g fuel L st).2 = st.2 ++ Δ ∧
          ∀ y ∈ Δ, y ∉ st.1 ∧ ∃ m ∈ L, rank y ≤ rank m) ∧
        (∀ m ∈ L, m ∈ (dfsList g fuel L st).1)) := by
  intro fuel
  induction fuel with
  | zero =>
    constructor
    · intro n st hinv hn hbudget
      exfalso
      have := nodup_bound_length st.1 g.nodes.length hinv.1 hinv.2.1
      omega
    · intro L st hinv hL hbudget
      exfalso
      have := nodup_bound_length st.1 g.nodes.length hinv.1 hinv.2.1
      omega
  | succ f ihf =>
    have hA : ∀ n st, StInv g st → n < g.nodes.length →
        g.nodes.length + 1 ≤ (f + 1) + st.1.length →
        StInv g (dfsAux g (f + 1) n st) ∧
        (∃ W, (dfsAux g (f + 1) n st).1 = W ++ st.1) ∧
        (∃ Δ, (dfsAux g (f + 1) n st).2 = st.2 ++ Δ ∧
          ∀ y ∈ Δ, y ∉ st.1 ∧ rank y ≤ rank n) ∧
        n ∈ (dfsAux g (f + 1) n st).1 := by
      intro n st hinv hn hbudget
      by_cases hvis : n ∈ st.1
      · rw [show dfsAux g (f + 1) n st = st by rw [dfsAux]; rw [if_pos hvis]]
        exact ⟨hinv, ⟨[], rfl⟩, ⟨[], by simp⟩, hvis⟩
      · have hred : dfsAux g (f + 1) n st =
            ((dfsList g f (g.prods n) (n :: st.1, st.2)).1,
             (dfsList g f (g.prods n) (n :: st.1, st.2)).2 ++ [n]) := by
          rw [dfsAux, if_neg hvis]
          rfl
        obtain ⟨hnd1, hbd1, hnd2, hsub2, hpw2, hpv2⟩ := hinv
        have hinv0 : StInv g (n :: st.1, st.2) := by
          refine ⟨List.nodup_cons.mpr ⟨hvis, hnd1⟩, ?_, hnd2, ?_, hpw2, ?_⟩
          · intro v hv
            rcases List.mem_cons.mp hv with hv | hv
            · rw [hv]; exact hn
            · exact hbd1 v hv
          · intro o ho
            exact List.mem_cons_of_mem n (hsub2 o ho)
          · intro x hx m hm
            exact List.mem_cons_of_mem n (hpv2 x hx m hm)
        have hbudget0 : g.nodes.length + 1 ≤ f + (n :: st.1).length := by
          simp only [List.length_cons]
          omega
        obtain ⟨hinv1, ⟨W1, hW1⟩, ⟨Δ1, hΔ1, hΔ1p⟩, hmarked⟩ :=
          ihf.2 (g.prods n) (n :: st.1, st.2) hinv0 (hclosed n hn) hbudget0
        set st1 := dfsList g f (g.prods n) (n :: st.1, st.2) with hst1
        obtain ⟨hnd1f, hbd1f, hnd2f, hsub2f, hpw2f, hpv2f⟩ := hinv1
        have hnin : n ∈ st1.1 := by
          rw [hW1]
          exact List.mem_append.mpr (Or.inr (List.mem_cons_self n st.1))
        have hnotord : n ∉ st1.2 := by
          rw [hΔ1]
          intro hc
          rcases List.mem_append.mp hc with hc | hc
          · exact hvis (hsub2 n hc)
          · exact (hΔ1p n hc).1 (List.mem_cons_self n st.1)
        constructor
        · -- the invariant for the final state
          rw [hred]
          refine ⟨hnd1f, hbd1f, ?_, ?_, ?_, ?_⟩
          · rw [List.nodup_append]
            exact ⟨hnd2f, List.nodup_singleton n, by
              intro a ha hb
              rw [List.mem_singleton] at hb
              rw [hb] at ha
              exact hnotord ha⟩
          · intro o ho
            rcases List.mem_append.mp ho with ho | ho
            · exact hsub2f o ho
            · rw [List.mem_singleton] at ho
              rw [ho]
              exact hnin
          · rw [List.pairwise_append]
            refine ⟨hpw2f, List.pairwise_singleton _ _, ?_⟩
            intro a ha b hb
            rw [List.mem_singleton] at hb
            rw [hb]
            rw [hΔ1] at ha
            rcases List.mem_append.mp ha with ha | ha
            · intro hc
              exact hvis (hpv2 a ha n hc)
            · intro hc
              obtain ⟨hfresh, m0, hm0mem, hrk0⟩ := hΔ1p a ha
              have hrka : rank a < rank n :=
                Nat.lt_of_le_of_lt hrk0 (hacyc n hn m0 hm0mem)
              have halt : a < g.nodes.length := by
                apply hbd1f
                exact hsub2f a (by rw [hΔ1]; exact List.mem_append.mpr (Or.inr ha))
              have : rank n < rank a := hacyc a halt n hc
              omega
          · intro x hx m hm
            rcases List.mem_append.mp hx with hx | hx
            · exact hpv2f x hx m hm
            · rw [List.mem_singleton] at hx
              subst hx
              exact hmarked m hm
        · constructor
          · rw [hred]
            refine ⟨W1 ++ [n], ?_⟩
            rw [hW1]
            simp
          constructor
          · rw [hred]
            refine ⟨Δ1 ++ [n], by rw [hΔ1]; simp, ?_⟩
            intro y hy
            rcases List.mem_append.mp hy with hy | hy
            · obtain ⟨hfresh, m0, hm0mem, hrk0⟩ := hΔ1p y hy
              refine ⟨fun hc => hfresh (List.mem_cons_of_mem n hc), ?_⟩
              exact Nat.le_of_lt (Nat.lt_of_le_of_lt hrk0 (hacyc n hn m0 hm0mem))
            · rw [List.mem_singleton] at hy
              subst hy
              exact ⟨hvis, Nat.le_refl _⟩
          · rw [hred]
            exact hnin
    refine ⟨hA, ?_⟩
    intro L
    induction L with
    | nil =>
      intro st hinv hL hbudget
      exact ⟨hinv, ⟨[], rfl⟩, ⟨[], by simp [dfsList]⟩, by intro m hm; cases hm⟩
    | cons m ms ihL =>
      intro st hinv hL hbudget
      have hm : m < g.nodes.length := hL m (List.mem_cons_self m ms)
      obtain ⟨hinv1, ⟨W1, hW1⟩, ⟨Δ1, hΔ1, hΔ1p⟩, hmem1⟩ := hA m st hinv hm hbudget
      have hstep : dfsList g (f + 1) (m :: ms) st =
          dfsList g (f + 1) ms (dfsAux g (f + 1) m st) := rfl
      set st1 := dfsAux g (f + 1) m st with hst1
      have hbudget1 : g.nodes.length + 1 ≤ (f + 1) + st1.1.length := by
        have : st.1.length ≤ st1.1.length := by
          rw [hW1]
          simp
        omega
      obtain ⟨hinvf, ⟨W2, hW2⟩, ⟨Δ2, hΔ2, hΔ2p⟩, hmemf⟩ :=
        ihL st1 hinv1 (fun x hx => hL x (List.mem_cons_of_mem m hx)) hbudget1
      rw [hstep]
      refine ⟨hinvf, ⟨W2 ++ W1, by rw [hW2, hW1]; simp⟩, ?_, ?_⟩
      · refine ⟨Δ1 ++ Δ2, by rw [hΔ2, hΔ1]; simp, ?_⟩
        intro y hy
        rcases List.mem_append.mp hy with hy | hy
        · obtain ⟨h1, h2⟩ := hΔ1p y hy
          exact ⟨h1, m, List.mem_cons_self m ms, h2⟩
        · obtain ⟨h1, m0, hm0, h2⟩ := hΔ2p y hy
          refine ⟨fun hc => h1 ?_, m0, List.mem_cons_of_mem m hm0, h2⟩
          rw [hW1]
          exact List.mem_append.mpr (Or.inr hc)
      · intro x hx
        rcases List.mem_cons.mp hx with hx | hx
        · subst hx
          rw [hW2]
          exact List.mem_append.mpr (Or.inr hmem1)
        · exact hmemf x hx

/-- The visit order of an acyclic graph is duplicate-free, within range,
and topologically sorted: no later element produces an earlier one. -/
theorem visitOrder_spec (g : Graph) (rank : NodeId → Nat)
    (hout : ∀ v ∈ g.outputs, v < g.nodes.length)
    (hclosed : ∀ n, n < g.nodes.length → ∀ m ∈ g.prods n, m < g.nodes.length)
    (hacyc : ∀ n, n < g.nodes.length → ∀ m ∈ g.prods n, rank m < rank n) :
    (visitOrder g).Nodup ∧ (∀ n ∈ visitOrder g, n < g.nodes.length) ∧
    (visitOrder g).Pairwise (fun a b => b ∉ g.prods a) := by
  have hinit : StInv g ([], []) := by
    refine ⟨List.nodup_nil, ?_, List.nodup_nil, ?_, List.Pairwise.nil, ?_⟩ <;>
      intro x hx <;> cases hx
  have hbudget : g.nodes.length + 1 ≤ (g.nodes.length + 1) + ([] : List NodeId).length := by
    simp
  obtain ⟨⟨-, hbd, hnd2, hsub2, hpw2, -⟩, -, -, -⟩ :=
    (dfs_spec g rank hclosed hacyc (g.nodes.length + 1)).2 g.outputs ([], []) hinit hout hbudget
  exact ⟨hnd2, fun n hn => hbd n (hsub2 n hn), hpw2⟩

/-- Claim C7: the compute sequence contains exactly the visited nodes whose
action bit is still set, without duplicates, and in a topological order:
every producer of a sequence element that is itself in the sequence appears
strictly before it. -/
theorem claim_C7 (g : Graph) (rank : NodeId → Nat) (cleared : List NodeId)
    (hout : ∀ v ∈ g.outputs, v < g.nodes.length)
    (hclosed : ∀ n, n < g.nodes.length → ∀ m ∈ g.prods n, m < g.nodes.length)
    (hacyc : ∀ n, n < g.nodes.length → ∀ m ∈ g.prods n, rank m < rank n) :
    (∀ n, n ∈ generate_compute_sequence g cleared ↔
        (n ∈ visitOrder g ∧ effAction g cleared n = true)) ∧
    (generate_compute_sequence g cleared).Nodup ∧
    (∀ l1 a l2, generate_compute_sequence g cleared = l1 ++ a :: l2 →
        ∀ m ∈ g.prods a, m ∈ generate_compute_sequence g cleared → m ∈ l1) := by
  obtain ⟨hnd, hbd, hpw⟩ := visitOrder_spec g rank hout hclosed hacyc
  have hmem : ∀ n, n ∈ generate_compute_sequence g cleared ↔
      (n ∈ visitOrder g ∧ effAction g cleared n = true) := by
    intro n
    unfold generate_compute_sequence
    exact List.mem_filter
  have hsub : List.Sublist (generate_compute_sequence g cleared) (visitOrder g) :=
    List.filter_sublist _
  refine ⟨hmem, hnd.sublist hsub, ?_⟩
  intro l1 a l2 heq m hm hmseq
  have hmemfull : m ∈ l1 ++ a :: l2 := by rw [← heq]; exact hmseq
  rcases List.mem_append.mp hmemfull with hml | hmr
  · exact hml
  · exfalso
    rcases List.mem_cons.mp hmr with hma | hml2
    · have haseq : a ∈ generate_compute_sequence g cleared := by
        rw [heq]
        exact List.mem_append.mpr (Or.inr (List.mem_cons_self a l2))
      have halen : a < g.nodes.length := hbd a ((hmem a).mp haseq).1
      have := hacyc a halen m hm
      rw [hma] at this
      omega
    · have hpwseq : (generate_compute_sequence g cleared).Pairwise
          (fun a b => b ∉ g.prods a) := hpw.sublist hsub
      rw [heq] at hpwseq
      have hpart := (List.pairwise_append.mp hpwseq).2.1
      have hrel := (List.pairwise_cons.mp hpart).1
      exact hrel m hml2 hm

theorem claim_C7_witness :
    (∀ n, n ∈ generate_compute_sequence gC4 [3] ↔
        (n ∈ visitOrder gC4 ∧ effAction gC4 [3] n = true)) ∧
    (generate_compute_sequence gC4 [3]).Nodup ∧
    (∀ l1 a l2, generate_compute_sequence gC4 [3] = l1 ++ a :: l2 →
        ∀ m ∈ gC4.prods a, m ∈ generate_compute_sequence gC4 [3] → m ∈ l1) :=
  claim_C7 gC4 (fun n => n) [3] (by decide) (by decide) (by decide)

/- ### Claim C1: chain resolution of demoted concats.
The claim's own upward walk is transcribed as `chainTop` (the outermost
view-concat reachable from a demoted concat) and `chainOffset` (the
cumulative offset contributed by the whole chain along the common axis);
the theorem compares the buffers produced by `fix_concat_indices` against
these spec-side values. -/

/-- The nodes whose output descriptor is rewritten by the upward chain walk
of one `fix_concat_indices` callback: the visited concat and every chain
ancestor strictly below the stopping point. -/
def walkNodes (g : Graph) (cleared : List NodeId) : Nat → NodeId → List NodeId
  | 0, c => [c]
  | Nat.succ fuel, c =>
    match try_get_concat_child g c with
    | none => [c]
    | some p =>
      if effAction g cleared p then [c] else c :: walkNodes g cleared fuel p

/-- Transcribed from the claim: the outermost view-concat reachable by
walking upward through single-consumer chains of view-concats. -/
def chainTop (g : Graph) (cleared : List NodeId) : Nat → NodeId → NodeId
  | 0, c => c
  | Nat.succ fuel, c =>
    match try_get_concat_child g c with
    | none => c
    | some p =>
      if effAction g cleared p then c else chainTop g cleared fuel p

/-- Transcribed from the claim: the cumulative sum, along the concat axis,
of the extents of the inputs preceding each chain member inside its parent,
accumulated across the whole chain. -/
def chainOffset (g : Graph) (cleared : List NodeId) : Nat → NodeId → Nat
  | 0, _ => 0
  | Nat.succ fuel, c =>
    match try_get_concat_child g c with
    | none => 0
    | some p =>
      if effAction g cleared p then 0
      else ((concat_dims g p).take (get_input_index g p ⟨c, 0⟩)).sum +
        chainOffset g cleared fuel p

/-- Well-formedness of the chain above a demoted concat with inputs `xs`:
every chain parent concatenates along the same axis `k`, every chain member
produces a rank-`R` output, and no chain member output is itself among
`xs` (a consequence of acyclicity). -/
def chainOkB (g : Graph) (cleared : List NodeId) (xs : List OutRef) (R k : Nat) :
    Nat → NodeId → Bool
  | 0, _ => true
  | Nat.succ fuel, c =>
    match try_get_concat_child g c with
    | none => true
    | some p =>
      if effAction g cleared p then true
      else
        decide ((g.node p).axis = k) &&
        decide ((g.outShape (⟨c, 0⟩ : OutRef)).length = R) &&
        decide ((⟨c, 0⟩ : OutRef) ∉ xs) &&
        chainOkB g cleared xs R k fuel p

theorem dfsList_zero (g : Graph) (L : List NodeId) (st : DfsState) :
    dfsList g 0 L st = st := by
  induction L generalizing st with
  | nil => rfl
  | cons m ms ih =>
    show dfsList g 0 ms (dfsAux g 0 m st) = st
    rw [show dfsAux g 0 m st = st from rfl]
    exact ih st

/-- Every node marked visited by the traversal is either initially visited
or eventually emitted in the order. -/
theorem dfs_vis_emit (g : Graph) : ∀ fuel : Nat,
    (∀ n st, (∃ Δ, (dfsAux g fuel n st).2 = st.2 ++ Δ) ∧
      (∀ v ∈ (dfsAux g fuel n st).1, v ∈ st.1 ∨ v ∈ (dfsAux g fuel n st).2)) ∧
    (∀ L st, (∃ Δ, (dfsList g fuel L st).2 = st.2 ++ Δ) ∧
      (∀ v ∈ (dfsList g fuel L st).1, v ∈ st.1 ∨ v ∈ (dfsList g fuel L st).2)) := by
  intro fuel
  induction fuel with
  | zero =>
    constructor
    · intro n st
      exact ⟨⟨[], by simp [dfsAux]⟩, fun v hv => Or.inl hv⟩
    · intro L st
      rw [dfsList_zero]
      exact ⟨⟨[], by simp⟩, fun v hv => Or.inl hv⟩
  | succ f ihf =>
    have hA : ∀ n st, (∃ Δ, (dfsAux g (f + 1) n st).2 = st.2 ++ Δ) ∧
        (∀ v ∈ (dfsAux g (f + 1) n st).1,
          v ∈ st.1 ∨ v ∈ (dfsAux g (f + 1) n st).2) := by
      intro n st
      by_cases hvis : n ∈ st.1
      · rw [show dfsAux g (f + 1) n st = st by rw [dfsAux]; rw [if_pos hvis]]
        exact ⟨⟨[], by simp⟩, fun v hv => Or.inl hv⟩
      · have hred : dfsAux g (f + 1) n st =
            ((dfsList g f (g.prods n) (n :: st.1, st.2)).1,
             (dfsList g f (g.prods n) (n :: st.1, st.2)).2 ++ [n]) := by
          rw [dfsAux, if_neg hvis]
          rfl
        obtain ⟨⟨Δ1, hΔ1⟩, hvm1⟩ := ihf.2 (g.prods n) (n :: st.1, st.2)
        rw [hred]
        constructor
        · exact ⟨Δ1 ++ [n], by rw [hΔ1]; simp⟩
        · intro v hv
          rcases hvm1 v hv with hv1 | hv2
          · rcases List.mem_cons.mp hv1 with hveq | hv1
            · right
              rw [hveq]
              exact List.mem_append.mpr (Or.inr (List.mem_singleton.mpr rfl))
            · exact Or.inl hv1
          · exact Or.inr (List.mem_append.mpr (Or.inl hv2))
    refine ⟨hA, ?_⟩
    intro L
    induction L with
    | nil =>
      intro st
      exact ⟨⟨[], by simp [dfsList]⟩, fun v hv => Or.inl hv⟩
    | cons m ms ihL =>
      intro st
      have hstep : dfsList g (f + 1) (m :: ms) st =
          dfsList g (f + 1) ms (dfsAux g (f + 1) m st) := rfl
      obtain ⟨⟨Δ1, hΔ1⟩, hv1⟩ := hA m st
      obtain ⟨⟨Δ2, hΔ2⟩, hv2⟩ := ihL (dfsAux g (f + 1) m st)
      rw [hstep]
      constructor
      · exact ⟨Δ1 ++ Δ2, by rw [hΔ2, hΔ1]; simp⟩
      · intro v hv
        rcases hv2 v hv with hva | hvb
        · rcases hv1 v hva with h | h
          · exact Or.inl h
          · right
            rw [hΔ2]
            exact List.mem_append.mpr (Or.inl h)
        · exact Or.inr hvb

/-- The visit order is closed under producers: every producer of a visited
node is itself visited. -/
theorem visitOrder_closed (g : Graph) (rank : NodeId → Nat)
    (hout : ∀ v ∈ g.outputs, v < g.nodes.length)
    (hclosed : ∀ n, n < g.nodes.length → ∀ m ∈ g.prods n, m < g.nodes.length)
    (hacyc : ∀ n, n < g.nodes.length → ∀ m ∈ g.prods n, rank m < rank n) :
    ∀ n ∈ visitOrder g, ∀ m ∈ g.prods n, m ∈ visitOrder g := by
  have hinit : StInv g ([], []) := by
    refine ⟨List.nodup_nil, ?_, List.nodup_nil, ?_, List.Pairwise.nil, ?_⟩ <;>
      intro x hx <;> cases hx
  have hbudget : g.nodes.length + 1 ≤ (g.nodes.length + 1) + ([] : List NodeId).length := by
    simp
  obtain ⟨⟨-, -, -, -, -, hpv⟩, -, -, -⟩ :=
    (dfs_spec g rank hclosed hacyc (g.nodes.length + 1)).2 g.outputs ([], []) hinit hout hbudget
  intro n hn m hm
  have hm1 : m ∈ (dfsList g (g.nodes.length + 1) g.outputs ([], [])).1 := hpv n hn m hm
  rcases ((dfs_vis_emit g (g.nodes.length + 1)).2 g.outputs ([], [])).2 m hm1 with h | h
  · cases h
  · exact h

/-- Strict positional order of two elements inside a list. -/
def before (l : List NodeId) (a b : NodeId) : Prop :=
  ∃ i j : Fin l.length, i < j ∧ l.get i = a ∧ l.get j = b

theorem before_cons (q : NodeId) (l : List NodeId) (a b : NodeId)
    (h : before l a b) : before (q :: l) a b := by
  obtain ⟨i, j, hij, hia, hjb⟩ := h
  refine ⟨i.succ, j.succ, Fin.succ_lt_succ_iff.mpr hij, ?_, ?_⟩
  · rw [show (q :: l).get i.succ = l.get i from rfl]
    exact hia
  · rw [show (q :: l).get j.succ = l.get j from rfl]
    exact hjb

theorem before_of_append (p r : List NodeId) (b a : NodeId) (ha : a ∈ r) :
    before (p ++ b :: r) b a := by
  induction p with
  | nil =>
    obtain ⟨j, hj⟩ := List.mem_iff_get.mp ha
    rw [List.nil_append]
    refine ⟨⟨0, by simp⟩, j.succ, ?_, rfl, ?_⟩
    · exact Fin.mk_lt_mk.mpr (Nat.succ_pos j.val)
    · rw [show (b :: r).get j.succ = r.get j from rfl]
      exact hj
  | cons q p2 ih =>
    rw [List.cons_append]
    exact before_cons q _ b a ih

theorem before_trans (l : List NodeId) (hnd : l.Nodup) (a b c : NodeId)
    (h1 : before l a b) (h2 : before l b c) : before l a c := by
  obtain ⟨i, j, hij, hia, hjb⟩ := h1
  obtain ⟨i2, j2, hij2, hib, hjc⟩ := h2
  have hinj := List.nodup_iff_injective_get.mp hnd
  have hji : j = i2 := hinj (by rw [hjb, hib])
  exact ⟨i, j2, lt_trans (hji ▸ hij) hij2, hia, hjc⟩

theorem before_irrefl (l : List NodeId) (hnd : l.Nodup) (a : NodeId) :
    ¬ before l a a := by
  rintro ⟨i, j, hij, hia, hja⟩
  have hinj := List.nodup_iff_injective_get.mp hnd
  have hijeq : i = j := hinj (by rw [hia, hja])
  rw [hijeq] at hij
  exact lt_irrefl _ hij

/-- In a duplicate-free topologically sorted list, a producer occurs
strictly before its consumer. -/
theorem prods_before (g : Graph) (l : List NodeId) (hnd : l.Nodup)
    (hpw : l.Pairwise (fun a b => b ∉ g.prods a))
    (a b : NodeId) (hne : a ≠ b) (hab : a ∈ g.prods b)
    (ha : a ∈ l) (hb : b ∈ l) : before l a b := by
  obtain ⟨ia, hia⟩ := List.mem_iff_get.mp ha
  obtain ⟨ib, hib⟩ := List.mem_iff_get.mp hb
  rcases lt_trichotomy ia ib with h | h | h
  · exact ⟨ia, ib, h, hia, hib⟩
  · exact absurd (by rw [← hia, ← hib, h]) hne
  · exfalso
    have hrel := (List.pairwise_iff_get.mp hpw) ib ia h
    rw [hia, hib] at hrel
    exact hrel hab

theorem enum_snd_mem : ∀ (l : List OutRef) (k : Nat) (pr : Nat × OutRef),
    pr ∈ l.enumFrom k → pr.2 ∈ l := by
  intro l
  induction l with
  | nil => intro k pr h; cases h
  | cons y t ih =>
    intro k pr h
    rcases List.mem_cons.mp h with h1 | h1
    · rw [h1]
      exact List.mem_cons_self y t
    · exact List.mem_cons_of_mem _ (ih _ _ h1)

/-- A consumer record of a connector means the connector is among the
consumer's inputs. -/
theorem consumers_mem (g : Graph) (r : OutRef) (m : NodeId) (i : Nat)
    (h : (m, i) ∈ g.consumers r) : r ∈ (g.node m).inputs := by
  unfold Graph.consumers at h
  rw [List.mem_flatMap] at h
  obtain ⟨n, hn, hmem⟩ := h
  rw [List.mem_filterMap] at hmem
  obtain ⟨pr, hpr, hif⟩ := hmem
  by_cases hc : pr.2 = r
  · rw [if_pos hc] at hif
    have h2 := Option.some.inj hif
    have hn_eq : n = m := congrArg Prod.fst h2
    rw [← hc, ← hn_eq]
    exact enum_snd_mem _ _ _ hpr
  · rw [if_neg hc] at hif
    cases hif

/-- The single concat consumer found by the chain walk consumes the node:
the node is a producer of that consumer. -/
theorem try_get_mem_prods (g : Graph) (n p : NodeId)
    (h : try_get_concat_child g n = some p) : n ∈ g.prods p := by
  unfold try_get_concat_child at h
  cases hcs : g.consumers (⟨n, 0⟩ : OutRef) with
  | nil => rw [hcs] at h; cases h
  | cons q rest =>
    cases rest with
    | nil =>
      rw [hcs] at h
      by_cases hop : (g.node q.1).opcode = Opcode.concat
      · rw [show (match [q] with
            | [c] => if (g.node c.1).opcode = Opcode.concat then some c.1 else none
            | _ => none) = if (g.node q.1).opcode = Opcode.concat then some q.1 else none
            from rfl, if_pos hop] at h
        have hq : q.1 = p := Option.some.inj h
        have hmem : (q.1, q.2) ∈ g.consumers (⟨n, 0⟩ : OutRef) := by
          rw [hcs]
          exact List.mem_singleton.mpr rfl
        have hin := consumers_mem g ⟨n, 0⟩ q.1 q.2 hmem
        rw [← hq]
        exact List.mem_map_of_mem OutRef.node hin
      · rw [show (match [q] with
            | [c] => if (g.node c.1).opcode = Opcode.concat then some c.1 else none
            | _ => none) = if (g.node q.1).opcode = Opcode.concat then some q.1 else none
            from rfl, if_neg hop] at h
        cases h
    | cons q2 rest2 => rw [hcs] at h; cases h

/-- Every node touched by the upward chain walk is reachable from the walk
origin through consumer edges. -/
theorem walk_rtg (g : Graph) (cleared : List NodeId) :
    ∀ (fuel : Nat) (child u : NodeId), u ∈ walkNodes g cleared fuel child →
      Relation.ReflTransGen (fun a b => a ∈ g.prods b) child u := by
  intro fuel
  induction fuel with
  | zero =>
    intro child u hu
    simp only [walkNodes, List.mem_singleton] at hu
    rw [hu]
  | succ f ih =>
    intro child u hu
    cases htc : try_get_concat_child g child with
    | none =>
      simp only [walkNodes, htc, List.mem_singleton] at hu
      rw [hu]
    | some p =>
      by_cases heff : effAction g cleared p = true
      · simp only [walkNodes, htc, if_pos heff, List.mem_singleton] at hu
        rw [hu]
      · simp only [walkNodes, htc, if_neg heff] at hu
        rcases List.mem_cons.mp hu with h1 | h1
        · rw [h1]
        · exact Relation.ReflTransGen.head (try_get_mem_prods g child p htc) (ih p u h1)

/-- Ancestors along consumer edges of a visited node are visited and occur
no later in the visit order. -/
theorem rtg_before (g : Graph) (rank : NodeId → Nat)
    (hcl : ∀ n ∈ visitOrder g, ∀ m ∈ g.prods n, m ∈ visitOrder g)
    (hnd : (visitOrder g).Nodup)
    (hpw : (visitOrder g).Pairwise (fun a b => b ∉ g.prods a))
    (hbd : ∀ n ∈ visitOrder g, n < g.nodes.length)
    (hacyc : ∀ n, n < g.nodes.length → ∀ m ∈ g.prods n, rank m < rank n)
    (w u : NodeId) (h : Relation.ReflTransGen (fun a b => a ∈ g.prods b) w u)
    (hu : u ∈ visitOrder g) :
    w ∈ visitOrder g ∧ (w = u ∨ before (visitOrder g) w u) := by
  induction h using Relation.ReflTransGen.head_induction_on with
  | refl => exact ⟨hu, Or.inl rfl⟩
  | head hstep hrest ih =>
    rename_i a z
    obtain ⟨hzord, hzu⟩ := ih
    have haord : a ∈ visitOrder g := hcl z hzord a hstep
    have hane : a ≠ z := by
      intro hc
      rw [hc] at hstep
      exact lt_irrefl _ (hacyc z (hbd z hzord) z hstep)
    have haz : before (visitOrder g) a z :=
      prods_before g _ hnd hpw a z hane hstep haord hzord
    refine ⟨haord, Or.inr ?_⟩
    rcases hzu with hzeq | hzb
    · rw [← hzeq]
      exact haz
    · exact before_trans _ hnd a z u haz hzb

theorem replicate_set_getD : ∀ (R k s : Nat), k < R →
    (((List.replicate R (0 : Nat)).set k s).getD k 0) = s := by
  intro R
  induction R with
  | zero => intro k s h; omega
  | succ R ih =>
    intro k s h
    cases k with
    | zero => rfl
    | succ k => exact ih k s (Nat.lt_of_succ_lt_succ h)

theorem replicate_set_zero : ∀ (R k : Nat),
    (List.replicate R (0 : Nat)).set k 0 = List.replicate R 0 := by
  intro R
  induction R with
  | zero => intro k; rfl
  | succ R ih =>
    intro k
    cases k with
    | zero => rfl
    | succ k =>
      show (0 : Nat) :: (List.replicate R 0).set k 0 = 0 :: List.replicate R 0
      rw [ih k]

theorem vecAdd_replicate_zero : ∀ R : Nat,
    vecAdd (List.replicate R 0) (List.replicate R 0) = List.replicate R 0 := by
  intro R
  induction R with
  | zero => rfl
  | succ R ih =>
    show (0 + 0 : Nat) :: vecAdd (List.replicate R 0) (List.replicate R 0) =
      0 :: List.replicate R 0
    rw [ih]

theorem vecAdd_replicate_set : ∀ (R k a b : Nat), k < R →
    vecAdd ((List.replicate R 0).set k a) ((List.replicate R 0).set k b) =
      (List.replicate R 0).set k (a + b) := by
  intro R
  induction R with
  | zero => intro k a b h; omega
  | succ R ih =>
    intro k a b h
    cases k with
    | zero =>
      show (a + b) :: vecAdd (List.replicate R 0) (List.replicate R 0) =
        (a + b) :: List.replicate R 0
      rw [vecAdd_replicate_zero]
    | succ k =>
      show (0 + 0 : Nat) :: vecAdd ((List.replicate R 0).set k a)
          ((List.replicate R 0).set k b) =
        0 :: (List.replicate R 0).set k (a + b)
      rw [ih k a b (Nat.lt_of_succ_lt_succ h)]

/-- The fold function of the index-initialisation step of
scheduler::fix_concat_indices. -/
def initF (g : Graph) (n : NodeId) : Buffers × List Nat → OutRef → Buffers × List Nat :=
  fun acc inref =>
    (bufUpdate acc.1 inref (fun b => { b with parent := some ⟨⟨n, 0⟩, acc.2⟩ }),
     acc.2.set (g.node n).axis
       ((acc.2.getD (g.node n).axis 0) + ((g.outShape inref).getD (g.node n).axis 0)))

theorem concat_init_eq_cons (g : Graph) (n : NodeId) (bufs : Buffers) (in0 : OutRef)
    (rest : List OutRef) (hcons : (g.node n).inputs = in0 :: rest) :
    concat_init g n bufs =
      ((in0 :: rest).foldl (initF g n)
        (bufs, List.replicate (g.outShape in0).length 0)).1 := by
  unfold concat_init
  rw [hcons]
  rfl

theorem initF_fold_frame (g : Graph) (n : NodeId) (x : OutRef) :
    ∀ (l : List OutRef) (acc : Buffers × List Nat), x ∉ l →
      bufFind ((l.foldl (initF g n) acc).1) x = bufFind acc.1 x := by
  intro l
  induction l with
  | nil => intro acc h; rfl
  | cons y t ih =>
    intro acc h
    rw [List.foldl_cons]
    rw [ih _ (fun hc => h (List.mem_cons_of_mem _ hc))]
    have hstep : (initF g n acc y).1 =
        bufUpdate acc.1 y (fun b => { b with parent := some ⟨⟨n, 0⟩, acc.2⟩ }) := rfl
    rw [hstep]
    have hxy : x ≠ y := fun hc => h (by rw [hc]; exact List.mem_cons_self y t)
    exact bufFind_bufUpdate_ne _ _ _ _ hxy

theorem initF_fold_isSome (g : Graph) (n : NodeId) (x : OutRef) :
    ∀ (l : List OutRef) (acc : Buffers × List Nat),
      (bufFind ((l.foldl (initF g n) acc).1) x).isSome =
        (bufFind acc.1 x).isSome := by
  intro l
  induction l with
  | nil => intro acc; rfl
  | cons y t ih =>
    intro acc
    rw [List.foldl_cons, ih]
    have hstep : (initF g n acc y).1 =
        bufUpdate acc.1 y (fun b => { b with parent := some ⟨⟨n, 0⟩, acc.2⟩ }) := rfl
    rw [hstep]
    by_cases h : x = y
    · rw [h, bufFind_bufUpdate_self]
      cases bufFind acc.1 y <;> rfl
    · rw [bufFind_bufUpdate_ne _ _ _ _ h]

theorem initF_fold_value (g : Graph) (n : NodeId) (x : OutRef) (bx : LogicalBuffer)
    (l2 : List OutRef) (hx2 : x ∉ l2) (R : Nat) (hkR : (g.node n).axis < R) :
    ∀ (l1 : List OutRef) (bs : Buffers) (s : Nat), x ∉ l1 →
    bufFind bs x = some bx →
    bufFind (((l1 ++ x :: l2).foldl (initF g n)
        (bs, (List.replicate R 0).set (g.node n).axis s)).1) x =
      some { bx with parent := some ⟨⟨n, 0⟩, (List.replicate R 0).set (g.node n).axis
        (s + (l1.map (fun r => (g.outShape r).getD (g.node n).axis 0)).sum)⟩ } := by
  intro l1
  induction l1 with
  | nil =>
    intro bs s hx1 hfind
    rw [List.nil_append, List.foldl_cons]
    rw [initF_fold_frame g n x l2 _ hx2]
    have h1 : (initF g n (bs, (List.replicate R 0).set (g.node n).axis s) x).1 =
        bufUpdate bs x (fun b =>
          { b with parent := some ⟨⟨n, 0⟩,
            (List.replicate R 0).set (g.node n).axis s⟩ }) := rfl
    rw [h1, bufFind_bufUpdate_self, hfind]
    simp only [Option.map_some', List.map_nil, List.sum_nil, Nat.add_zero]
  | cons y t ih =>
    intro bs s hx1 hfind
    have hxy : x ≠ y := fun hc => hx1 (hc ▸ List.mem_cons_self y t)
    rw [List.cons_append, List.foldl_cons]
    have hstep : initF g n (bs, (List.replicate R 0).set (g.node n).axis s) y =
        (bufUpdate bs y (fun b =>
          { b with parent := some ⟨⟨n, 0⟩, (List.replicate R 0).set (g.node n).axis s⟩ }),
         (List.replicate R 0).set (g.node n).axis
           (s + (g.outShape y).getD (g.node n).axis 0)) := by
      unfold initF
      rw [replicate_set_getD R _ s hkR, List.set_set]
    rw [hstep]
    rw [ih _ _ (fun hc => hx1 (List.mem_cons_of_mem _ hc))
      (by rw [bufFind_bufUpdate_ne _ _ _ _ hxy]; exact hfind)]
    rw [List.map_cons, List.sum_cons, Nat.add_assoc]

/-- The buffer of a connection untouched by the concat initialisation is
unchanged. -/
theorem concat_init_frame (g : Graph) (n : NodeId) (bufs : Buffers) (x : OutRef)
    (hx : x ∉ (g.node n).inputs) :
    bufFind (concat_init g n bufs) x = bufFind bufs x := by
  cases hcs : (g.node n).inputs with
  | nil =>
    rw [show concat_init g n bufs = bufs by unfold concat_init; rw [hcs]]
  | cons in0 rest =>
    rw [concat_init_eq_cons g n bufs in0 rest hcs]
    rw [hcs] at hx
    exact initF_fold_frame g n x _ _ hx

theorem concat_init_isSome (g : Graph) (n : NodeId) (bufs : Buffers) (x : OutRef) :
    (bufFind (concat_init g n bufs) x).isSome = (bufFind bufs x).isSome := by
  cases hcs : (g.node n).inputs with
  | nil =>
    rw [show concat_init g n bufs = bufs by unfold concat_init; rw [hcs]]
  | cons in0 rest =>
    rw [concat_init_eq_cons g n bufs in0 rest hcs]
    exact initF_fold_isSome g n x _ _

/-- The value the concat initialisation gives an input at position `l1.length`
of the demoted concat: parent is the concat output, begin is the running
offset of the earlier inputs along the axis, zero elsewhere. -/
theorem concat_init_value (g : Graph) (n : NodeId) (bufs : Buffers) (x in0 : OutRef)
    (rest l1 l2 : List OutRef) (bx : LogicalBuffer)
    (hcons : (g.node n).inputs = in0 :: rest)
    (hsplit : (g.node n).inputs = l1 ++ x :: l2) (hx1 : x ∉ l1) (hx2 : x ∉ l2)
    (hfind : bufFind bufs x = some bx)
    (hkR : (g.node n).axis < (g.outShape in0).length) :
    bufFind (concat_init g n bufs) x = some { bx with parent := some ⟨⟨n, 0⟩,
      (List.replicate (g.outShape in0).length 0).set (g.node n).axis
        ((l1.map (fun r => (g.outShape r).getD (g.node n).axis 0)).sum)⟩ } := by
  rw [concat_init_eq_cons g n bufs in0 rest hcons]
  have h2 : in0 :: rest = l1 ++ x :: l2 := by rw [← hcons]; exact hsplit
  rw [h2]
  rw [← replicate_set_zero (g.outShape in0).length (g.node n).axis]
  rw [initF_fold_value g n x bx l2 hx2 _ hkR l1 bufs 0 hx1 hfind]
  rw [Nat.zero_add, List.set_set]

/-- Frame property of any fold of per-key buffer updates. -/
theorem bufUpdate_fold_frame (x : OutRef) (F : OutRef → LogicalBuffer → LogicalBuffer) :
    ∀ (l : List OutRef) (bs : Buffers), x ∉ l →
      bufFind (l.foldl (fun bs2 y => bufUpdate bs2 y (F y)) bs) x = bufFind bs x := by
  intro l
  induction l with
  | nil => intro bs h; rfl
  | cons y t ih =>
    intro bs h
    rw [List.foldl_cons]
    rw [ih _ (fun hc => h (List.mem_cons_of_mem _ hc))]
    have hxy : x ≠ y := fun hc => h (by rw [hc]; exact List.mem_cons_self y t)
    exact bufFind_bufUpdate_ne _ _ _ _ hxy

theorem bufUpdate_fold_isSome (x : OutRef) (F : OutRef → LogicalBuffer → LogicalBuffer) :
    ∀ (l : List OutRef) (bs : Buffers),
      (bufFind (l.foldl (fun bs2 y => bufUpdate bs2 y (F y)) bs) x).isSome =
        (bufFind bs x).isSome := by
  intro l
  induction l with
  | nil => intro bs; rfl
  | cons y t ih =>
    intro bs
    rw [List.foldl_cons, ih]
    by_cases h : x = y
    · rw [h, bufFind_bufUpdate_self]
      cases bufFind bs y <;> rfl
    · rw [bufFind_bufUpdate_ne _ _ _ _ h]

theorem concat_chain_step_eq (g : Graph) (c child : NodeId) (bufs : Buffers)
    (p : NodeId) :
    concat_chain_step g c child bufs p =
      (g.node c).inputs.foldl (fun bs inref =>
          bufUpdate bs inref (fun b =>
            match b.parent with
            | some d => { b with parent := some ⟨⟨p, 0⟩,
                vecAdd d.start
                  ((List.replicate (g.outShape (⟨child, 0⟩ : OutRef)).length 0).set
                    (g.node p).axis
                    (((concat_dims g p).take (get_input_index g p ⟨child, 0⟩)).sum))⟩ }
            | none => b))
        (bufUpdate bufs ⟨child, 0⟩ (fun b =>
          { b with parent := some ⟨⟨p, 0⟩,
            ((List.replicate (g.outShape (⟨child, 0⟩ : OutRef)).length 0).set
              (g.node p).axis
              (((concat_dims g p).take (get_input_index g p ⟨child, 0⟩)).sum))⟩ })) := rfl

/-- The buffer of a connection that is neither an input of the visited
concat nor the current chain member's output is unchanged by one chain
iteration. -/
theorem concat_chain_step_frame (g : Graph) (c child : NodeId) (bufs : Buffers)
    (p : NodeId) (x : OutRef) (hxc : x ∉ (g.node c).inputs)
    (hxchild : x ≠ ⟨child, 0⟩) :
    bufFind (concat_chain_step g c child bufs p) x = bufFind bufs x := by
  rw [concat_chain_step_eq]
  rw [bufUpdate_fold_frame x _ _ _ hxc]
  exact bufFind_bufUpdate_ne _ _ _ _ hxchild

theorem concat_chain_step_isSome (g : Graph) (c child : NodeId) (bufs : Buffers)
    (p : NodeId) (x : OutRef) :
    (bufFind (concat_chain_step g c child bufs p) x).isSome =
      (bufFind bufs x).isSome := by
  rw [concat_chain_step_eq]
  rw [bufUpdate_fold_isSome x _ _ _]
  by_cases h : x = (⟨child, 0⟩ : OutRef)
  · rw [h, bufFind_bufUpdate_self]
    cases bufFind bufs ⟨child, 0⟩ <;> rfl
  · rw [bufFind_bufUpdate_ne _ _ _ _ h]

/-- One chain iteration shifts the tracked input's begin by the parent
offset of the current chain member and re-points it at the parent. -/
theorem concat_chain_step_value (g : Graph) (c child p : NodeId) (x : OutRef)
    (l1 l2 : List OutRef) (bufs : Buffers) (bx : LogicalBuffer) (R k s : Nat)
    (hsplit : (g.node c).inputs = l1 ++ x :: l2) (hx1 : x ∉ l1) (hx2 : x ∉ l2)
    (hxc : x ≠ ⟨child, 0⟩)
    (hfind : bufFind bufs x = some bx)
    (hpar : bx.parent = some ⟨⟨child, 0⟩, (List.replicate R 0).set k s⟩)
    (haxis : (g.node p).axis = k)
    (hrank : (g.outShape (⟨child, 0⟩ : OutRef)).length = R)
    (hkR : k < R) :
    bufFind (concat_chain_step g c child bufs p) x =
      some { bx with parent := some ⟨⟨p, 0⟩, (List.replicate R 0).set k
        (s + ((concat_dims g p).take (get_input_index g p ⟨child, 0⟩)).sum)⟩ } := by
  rw [concat_chain_step_eq, hrank, haxis]
  rw [hsplit, List.foldl_append, List.foldl_cons]
  rw [bufUpdate_fold_frame x _ _ _ hx2]
  have hfind1 : bufFind ((l1.foldl (fun bs inref =>
      bufUpdate bs inref (fun b =>
        match b.parent with
        | some d => { b with parent := some ⟨⟨p, 0⟩,
            vecAdd d.start ((List.replicate R 0).set k
              (((concat_dims g p).take (get_input_index g p ⟨child, 0⟩)).sum))⟩ }
        | none => b))
      (bufUpdate bufs ⟨child, 0⟩ (fun b =>
        { b with parent := some ⟨⟨p, 0⟩,
          ((List.replicate R 0).set k
            (((concat_dims g p).take (get_input_index g p ⟨child, 0⟩)).sum))⟩ })))) x =
      some bx := by
    rw [bufUpdate_fold_frame x _ _ _ hx1]
    rw [bufFind_bufUpdate_ne _ _ _ _ hxc]
    exact hfind
  rw [bufFind_bufUpdate_self, hfind1]
  rw [Option.map_some']
  cases hbp : bx.parent with
  | none => rw [hbp] at hpar; cases hpar
  | some d =>
    rw [hbp] at hpar
    have hd : d = ⟨⟨child, 0⟩, (List.replicate R 0).set k s⟩ := Option.some.inj hpar
    show some { bx with parent := some ⟨(⟨p, 0⟩ : OutRef),
        vecAdd d.start ((List.replicate R 0).set k
          (((concat_dims g p).take (get_input_index g p ⟨child, 0⟩)).sum))⟩ } = _
    rw [hd]
    show some { bx with parent := some ⟨(⟨p, 0⟩ : OutRef),
        vecAdd ((List.replicate R 0).set k s) ((List.replicate R 0).set k
          (((concat_dims g p).take (get_input_index g p ⟨child, 0⟩)).sum))⟩ } = _
    rw [vecAdd_replicate_set R k s _ hkR]

/-- The buffer of a connection that is neither an input of the visited
concat nor the output of a walk member is unchanged by the whole upward
chain walk. -/
theorem concat_chain_loop_frame (g : Graph) (cleared : List NodeId) (c : NodeId)
    (x : OutRef) (hxc : x ∉ (g.node c).inputs) :
    ∀ (fuel : Nat) (child : NodeId) (bufs : Buffers),
      (∀ u ∈ walkNodes g cleared fuel child, x ≠ ⟨u, 0⟩) →
      bufFind (concat_chain_loop g cleared c fuel child bufs) x = bufFind bufs x := by
  intro fuel
  induction fuel with
  | zero => intro child bufs hw; rfl
  | succ f ih =>
    intro child bufs hw
    cases htc : try_get_concat_child g child with
    | none => simp only [concat_chain_loop, htc]
    | some p =>
      by_cases heff : effAction g cleared p = true
      · simp only [concat_chain_loop, htc, if_pos heff]
      · simp only [concat_chain_loop, htc, if_neg heff]
        have hw2 : ∀ u ∈ walkNodes g cleared f p, x ≠ ⟨u, 0⟩ := by
          intro u hu
          apply hw
          simp only [walkNodes, htc, if_neg heff]
          exact List.mem_cons_of_mem _ hu
        rw [ih p _ hw2]
        apply concat_chain_step_frame g c child bufs p x hxc
        apply hw
        simp only [walkNodes, htc, if_neg heff]
        exact List.mem_cons_self _ _

theorem concat_chain_loop_isSome (g : Graph) (cleared : List NodeId) (c : NodeId)
    (x : OutRef) :
    ∀ (fuel : Nat) (child : NodeId) (bufs : Buffers),
      (bufFind (concat_chain_loop g cleared c fuel child bufs) x).isSome =
        (bufFind bufs x).isSome := by
  intro fuel
  induction fuel with
  | zero => intro child bufs; rfl
  | succ f ih =>
    intro child bufs
    cases htc : try_get_concat_child g child with
    | none => simp only [concat_chain_loop, htc]
    | some p =>
      by_cases heff : effAction g cleared p = true
      · simp only [concat_chain_loop, htc, if_pos heff]
      · simp only [concat_chain_loop, htc, if_neg heff]
        rw [ih p _]
        exact concat_chain_step_isSome g c child bufs p x

/-- The value the whole upward walk leaves on the tracked input: parent is
the chain top, begin accumulates the chain offset on top of the entry
offset. -/
theorem concat_chain_loop_value (g : Graph) (cleared : List NodeId) (c : NodeId)
    (x : OutRef) (l1 l2 : List OutRef) (R k : Nat)
    (hsplit : (g.node c).inputs = l1 ++ x :: l2) (hx1 : x ∉ l1) (hx2 : x ∉ l2)
    (hkR : k < R) :
    ∀ (fuel : Nat) (child : NodeId) (bufs : Buffers) (bx : LogicalBuffer) (s : Nat),
      chainOkB g cleared ((g.node c).inputs) R k fuel child = true →
      bufFind bufs x = some bx →
      bx.parent = some ⟨⟨child, 0⟩, (List.replicate R 0).set k s⟩ →
      ∃ b, bufFind (concat_chain_loop g cleared c fuel child bufs) x = some b ∧
        b.parent = some ⟨⟨chainTop g cleared fuel child, 0⟩,
          (List.replicate R 0).set k (s + chainOffset g cleared fuel child)⟩ := by
  intro fuel
  induction fuel with
  | zero =>
    intro child bufs bx s hok hfind hpar
    refine ⟨bx, hfind, ?_⟩
    simp only [chainTop, chainOffset, Nat.add_zero]
    exact hpar
  | succ f ih =>
    intro child bufs bx s hok hfind hpar
    cases htc : try_get_concat_child g child with
    | none =>
      refine ⟨bx, ?_, ?_⟩
      · simp only [concat_chain_loop, htc]
        exact hfind
      · simp only [chainTop, chainOffset, htc, Nat.add_zero]
        exact hpar
    | some p =>
      by_cases heff : effAction g cleared p = true
      · refine ⟨bx, ?_, ?_⟩
        · simp only [concat_chain_loop, htc, if_pos heff]
          exact hfind
        · simp only [chainTop, chainOffset, htc, if_pos heff, Nat.add_zero]
          exact hpar
      · simp only [chainOkB, htc, if_neg heff, Bool.and_eq_true, decide_eq_true_eq] at hok
        obtain ⟨⟨⟨haxis, hrank⟩, hnotxs⟩, hok2⟩ := hok
        have hxchild : x ≠ ⟨child, 0⟩ := by
          intro hc
          apply hnotxs
          rw [← hc, hsplit]
          exact List.mem_append.mpr (Or.inr (List.mem_cons_self x l2))
        have hstep := concat_chain_step_value g c child p x l1 l2 bufs bx R k s
          hsplit hx1 hx2 hxchild hfind hpar haxis hrank hkR
        obtain ⟨b, hb1, hb2⟩ := ih p (concat_chain_step g c child bufs p) _
          (s + ((concat_dims g p).take (get_input_index g p ⟨child, 0⟩)).sum)
          hok2 hstep rfl
        refine ⟨b, ?_, ?_⟩
        · simp only [concat_chain_loop, htc, if_neg heff]
          exact hb1
        · simp only [chainTop, chainOffset, htc, if_neg heff]
          rw [← Nat.add_assoc]
          exact hb2

/-- A fix_concat_indices callback leaves untouched any connection that is
not an input of the visited concat and not the output of a walk member. -/
theorem fix_concat_step_frame (g : Graph) (cleared : List NodeId) (bs : Buffers)
    (w : NodeId) (x : OutRef)
    (h : (g.node w).opcode = Opcode.concat ∧ effAction g cleared w = false →
      x ∉ (g.node w).inputs ∧
        ∀ u ∈ walkNodes g cleared (g.nodes.length + 1) w, x ≠ ⟨u, 0⟩) :
    bufFind (fix_concat_step g cleared bs w) x = bufFind bs x := by
  unfold fix_concat_step
  by_cases hc : (g.node w).opcode = Opcode.concat ∧ effAction g cleared w = false
  · rw [if_pos hc]
    obtain ⟨h1, h2⟩ := h hc
    rw [concat_chain_loop_frame g cleared w x h1 _ _ _ h2]
    exact concat_init_frame g w bs x h1
  · rw [if_neg hc]

theorem fix_concat_step_isSome (g : Graph) (cleared : List NodeId) (bs : Buffers)
    (w : NodeId) (x : OutRef) :
    (bufFind (fix_concat_step g cleared bs w) x).isSome =
      (bufFind bs x).isSome := by
  unfold fix_concat_step
  by_cases hc : (g.node w).opcode = Opcode.concat ∧ effAction g cleared w = false
  · rw [if_pos hc]
    rw [concat_chain_loop_isSome g cleared w x _ _ _]
    exact concat_init_isSome g w bs x
  · rw [if_neg hc]

/-- The value the callback on the demoted concat itself leaves on the
tracked input. -/
theorem fix_concat_step_value (g : Graph) (cleared : List NodeId) (c : NodeId)
    (x in0 : OutRef) (rest l1 l2 : List OutRef) (bufs : Buffers) (bx : LogicalBuffer)
    (R k : Nat)
    (hconcat : (g.node c).opcode = Opcode.concat)
    (hdem : effAction g cleared c = false)
    (hcons : (g.node c).inputs = in0 :: rest)
    (hsplit : (g.node c).inputs = l1 ++ x :: l2) (hx1 : x ∉ l1) (hx2 : x ∉ l2)
    (hfind : bufFind bufs x = some bx)
    (hR : (g.outShape in0).length = R) (hk : (g.node c).axis = k) (hkR : k < R)
    (hchain : chainOkB g cleared ((g.node c).inputs) R k (g.nodes.length + 1) c = true) :
    ∃ b, bufFind (fix_concat_step g cleared bufs c) x = some b ∧
      b.parent = some ⟨⟨chainTop g cleared (g.nodes.length + 1) c, 0⟩,
        (List.replicate R 0).set k
          ((l1.map (fun r => (g.outShape r).getD k 0)).sum +
            chainOffset g cleared (g.nodes.length + 1) c)⟩ := by
  subst hR
  subst hk
  unfold fix_concat_step
  rw [if_pos ⟨hconcat, hdem⟩]
  have hinit := concat_init_value g c bufs x in0 rest l1 l2 bx hcons hsplit hx1 hx2
    hfind hkR
  exact concat_chain_loop_value g cleared c x l1 l2 _ _ hsplit hx1 hx2 hkR
    (g.nodes.length + 1) c (concat_init g c bufs) _
    ((l1.map (fun r => (g.outShape r).getD (g.node c).axis 0)).sum) hchain hinit rfl

theorem fix_fold_frame (g : Graph) (cleared : List NodeId) (x : OutRef) :
    ∀ (L : List NodeId) (bs : Buffers),
      (∀ w ∈ L, ∀ bs2 : Buffers,
        bufFind (fix_concat_step g cleared bs2 w) x = bufFind bs2 x) →
      bufFind (L.foldl (fix_concat_step g cleared) bs) x = bufFind bs x := by
  intro L
  induction L with
  | nil => intro bs h; rfl
  | cons w t ih =>
    intro bs h
    rw [List.foldl_cons]
    rw [ih _ (fun w2 hw2 => h w2 (List.mem_cons_of_mem _ hw2))]
    exact h w (List.mem_cons_self w t) bs

theorem fix_fold_isSome (g : Graph) (cleared : List NodeId) (x : OutRef) :
    ∀ (L : List NodeId) (bs : Buffers),
      (bufFind (L.foldl (fix_concat_step g cleared) bs) x).isSome =
        (bufFind bs x).isSome := by
  intro L
  induction L with
  | nil => intro bs; rfl
  | cons w t ih =>
    intro bs
    rw [List.foldl_cons, ih]
    exact fix_concat_step_isSome g cleared bs w x

theorem concat_dims_take (g : Graph) (c : NodeId) (l1 : List OutRef) (x : OutRef)
    (l2 : List OutRef) (hsplit : (g.node c).inputs = l1 ++ x :: l2) :
    (concat_dims g c).take l1.length =
      l1.map (fun r => (g.outShape r).getD (g.node c).axis 0) := by
  unfold concat_dims
  rw [hsplit, List.map_append]
  rw [show l1.length =
    (l1.map (fun r => (g.outShape r).getD (g.node c).axis 0)).length from
    (List.length_map _ _).symm]
  exact List.take_left _ _

/-- Claim C1, corrected.  After fix_concat_indices, for a concat `c` demoted
to a view and an input connection `x` of `c` that is NOT also an input of
any other demoted concat, the logical buffer of `x` carries a parent
descriptor whose parent is the output of the outermost view-concat
reachable by walking upward from `c` through single-consumer chains of
view-concats (`chainTop`), and whose begin is zero except along the concat
axis, where it is the cumulative extent of the inputs preceding `x` inside
`c` plus the offsets contributed by the whole chain (`chainOffset`): the
absolute offset inside the outermost concat's buffer.  As literally stated
the claim is false: when `x` also feeds a second demoted concat, whichever
concat the visitor reaches last overwrites the descriptor with its own
chain top (see the counterexample). -/
theorem claim_C1 (g : Graph) (rank : NodeId → Nat) (cleared : List NodeId)
    (bufs0 : Buffers) (c : NodeId) (in0 x : OutRef) (rest l1 l2 : List OutRef)
    (R k : Nat)
    (hout : ∀ v ∈ g.outputs, v < g.nodes.length)
    (hclosed : ∀ n, n < g.nodes.length → ∀ m ∈ g.prods n, m < g.nodes.length)
    (hacyc : ∀ n, n < g.nodes.length → ∀ m ∈ g.prods n, rank m < rank n)
    (hvisit : c ∈ visitOrder g)
    (hconcat : (g.node c).opcode = Opcode.concat)
    (hdem : effAction g cleared c = false)
    (hcons : (g.node c).inputs = in0 :: rest)
    (hin : (g.node c).inputs = l1 ++ x :: l2)
    (hnd_in : (g.node c).inputs.Nodup)
    (hR : (g.outShape in0).length = R)
    (hk : (g.node c).axis = k)
    (hkR : k < R)
    (hx0 : (bufFind bufs0 x).isSome = true)
    (hshared : ∀ w ∈ visitOrder g, w ≠ c → (g.node w).opcode = Opcode.concat →
        effAction g cleared w = false → x ∉ (g.node w).inputs)
    (hchain : chainOkB g cleared ((g.node c).inputs) R k (g.nodes.length + 1) c = true) :
    ∃ b, bufFind (fix_concat_indices g ⟨bufs0, cleared⟩) x = some b ∧
      b.parent = some ⟨⟨chainTop g cleared (g.nodes.length + 1) c, 0⟩,
        (List.replicate R 0).set k
          (((concat_dims g c).take l1.length).sum +
            chainOffset g cleared (g.nodes.length + 1) c)⟩ := by
  have hnd_in2 := hnd_in
  rw [hin] at hnd_in2
  have hx1 : x ∉ l1 := by
    intro hc
    exact (List.nodup_append.mp hnd_in2).2.2 hc (List.mem_cons_self x l2)
  have hx2 : x ∉ l2 :=
    (List.nodup_cons.mp (List.nodup_append.mp hnd_in2).2.1).1
  obtain ⟨hnd_ord, hbd, hpw⟩ := visitOrder_spec g rank hout hclosed hacyc
  have hcl := visitOrder_closed g rank hout hclosed hacyc
  obtain ⟨o1, o2, hsp⟩ := List.append_of_mem hvisit
  have hfix : fix_concat_indices g ⟨bufs0, cleared⟩ =
      o2.foldl (fix_concat_step g cleared)
        (fix_concat_step g cleared (o1.foldl (fix_concat_step g cleared) bufs0) c) := by
    unfold fix_concat_indices
    rw [show (⟨bufs0, cleared⟩ : AliasState).cleared = cleared from rfl,
        show (⟨bufs0, cleared⟩ : AliasState).buffers = bufs0 from rfl]
    rw [hsp, List.foldl_append, List.foldl_cons]
  have hpre : (bufFind (o1.foldl (fix_concat_step g cleared) bufs0) x).isSome = true := by
    rw [fix_fold_isSome]
    exact hx0
  obtain ⟨bx, hbx⟩ := Option.isSome_iff_exists.mp hpre
  obtain ⟨b, hb1, hb2⟩ := fix_concat_step_value g cleared c x in0 rest l1 l2 _ bx R k
    hconcat hdem hcons hin hx1 hx2 hbx hR hk hkR hchain
  have hframe : ∀ w ∈ o2, ∀ bs2 : Buffers,
      bufFind (fix_concat_step g cleared bs2 w) x = bufFind bs2 x := by
    intro w hw bs2
    apply fix_concat_step_frame
    rintro ⟨hwc, hwd⟩
    have hword : w ∈ visitOrder g := by
      rw [hsp]
      exact List.mem_append.mpr (Or.inr (List.mem_cons_of_mem _ hw))
    have hcno2 : c ∉ o2 := by
      have hnd3 := hnd_ord
      rw [hsp] at hnd3
      exact (List.nodup_cons.mp (List.nodup_append.mp hnd3).2.1).1
    have hwne : w ≠ c := fun hc => hcno2 (hc ▸ hw)
    refine ⟨hshared w hword hwne hwc hwd, ?_⟩
    intro u hu hxu
    have hun : u = x.node := by rw [hxu]
    have hxprod : x.node ∈ g.prods c := by
      apply List.mem_map_of_mem
      rw [hin]
      exact List.mem_append.mpr (Or.inr (List.mem_cons_self x l2))
    have hxord : x.node ∈ visitOrder g := hcl c hvisit x.node hxprod
    have huord : u ∈ visitOrder g := by rw [hun]; exact hxord
    have hrtg := walk_rtg g cleared _ w u hu
    obtain ⟨hword2, hwu⟩ := rtg_before g rank hcl hnd_ord hpw hbd hacyc w u hrtg huord
    have hxnec : x.node ≠ c := by
      intro hc
      rw [hc] at hxprod
      exact lt_irrefl _ (hacyc c (hbd c hvisit) c hxprod)
    have hbefore_xc : before (visitOrder g) x.node c :=
      prods_before g _ hnd_ord hpw x.node c hxnec hxprod hxord hvisit
    have hbefore_cw : before (visitOrder g) c w := by
      rw [hsp]
      exact before_of_append o1 o2 c w hw
    rcases hwu with hweq | hwb
    · rw [hweq, hun] at hbefore_cw
      exact before_irrefl _ hnd_ord c
        (before_trans _ hnd_ord c x.node c hbefore_cw hbefore_xc)
    · have hwu2 : before (visitOrder g) w x.node := by rw [← hun]; exact hwb
      exact before_irrefl _ hnd_ord c
        (before_trans _ hnd_ord c w c hbefore_cw
          (before_trans _ hnd_ord w x.node c hwu2 hbefore_xc))
  refine ⟨b, ?_, ?_⟩
  · rw [hfix, fix_fold_frame g cleared x o2 _ hframe]
    exact hb1
  · rw [concat_dims_take g c l1 x l2 hin, hk]
    exact hb2

/-- Witness graph for C1: a chain of two demoted concats
(x, y) -> concat3 -> concat5 <- z, feeding the output. -/
def gC1w : Graph :=
  { nodes :=
      [ ⟨Opcode.input_node, true, [], [[1]], [f32], 0⟩
      , ⟨Opcode.other, true, [⟨0, 0⟩], [[2, 4]], [f32], 0⟩
      , ⟨Opcode.other, true, [⟨0, 0⟩], [[3, 4]], [f32], 0⟩
      , ⟨Opcode.concat, true, [⟨1, 0⟩, ⟨2, 0⟩], [[5, 4]], [f32], 0⟩
      , ⟨Opcode.other, true, [⟨0, 0⟩], [[1, 4]], [f32], 0⟩
      , ⟨Opcode.concat, true, [⟨3, 0⟩, ⟨4, 0⟩], [[6, 4]], [f32], 0⟩
      , ⟨Opcode.output_node, true, [⟨5, 0⟩], [], [], 0⟩ ]
    outputs := [6] }

def bufsC1w : Buffers := (make_logical_buffers gC1w).toOption.getD []

def stC1w : AliasState := analyze_buffer_alias gC1w bufsC1w

theorem claim_C1_witness :
    ((∀ v ∈ gC1w.outputs, v < gC1w.nodes.length) ∧
     (∀ n, n < gC1w.nodes.length → ∀ m ∈ gC1w.prods n, m < gC1w.nodes.length) ∧
     (∀ n, n < gC1w.nodes.length → ∀ m ∈ gC1w.prods n, m < n) ∧
     3 ∈ visitOrder gC1w ∧
     (gC1w.node 3).opcode = Opcode.concat ∧
     effAction gC1w stC1w.cleared 3 = false ∧
     (gC1w.node 3).inputs = [⟨1, 0⟩] ++ ⟨2, 0⟩ :: [] ∧
     (gC1w.node 3).inputs.Nodup ∧
     (gC1w.outShape ⟨1, 0⟩).length = 2 ∧
     (gC1w.node 3).axis = 0 ∧
     (0 : Nat) < 2 ∧
     (bufFind stC1w.buffers ⟨2, 0⟩).isSome = true ∧
     (∀ w ∈ visitOrder gC1w, w ≠ 3 → (gC1w.node w).opcode = Opcode.concat →
        effAction gC1w stC1w.cleared w = false →
        (⟨2, 0⟩ : OutRef) ∉ (gC1w.node w).inputs) ∧
     chainOkB gC1w stC1w.cleared ((gC1w.node 3).inputs) 2 0
       (gC1w.nodes.length + 1) 3 = true) ∧
    (∃ b, bufFind (fix_concat_indices gC1w ⟨stC1w.buffers, stC1w.cleared⟩) ⟨2, 0⟩ =
        some b ∧
      b.parent = some ⟨⟨chainTop gC1w stC1w.cleared (gC1w.nodes.length + 1) 3, 0⟩,
        (List.replicate 2 0).set 0
          (((concat_dims gC1w 3).take ([(⟨1, 0⟩ : OutRef)] : List OutRef).length).sum +
            chainOffset gC1w stC1w.cleared (gC1w.nodes.length + 1) 3)⟩) :=
  ⟨⟨by decide, by decide, by decide, by decide, by decide, by decide, by decide,
    by decide, by decide, by decide, by decide, by decide, by decide, by decide⟩,
   claim_C1 gC1w (fun n => n) stC1w.cleared stC1w.buffers 3 ⟨1, 0⟩ ⟨2, 0⟩
     [⟨2, 0⟩] [⟨1, 0⟩] [] 2 0 (by decide) (by decide) (by decide) (by decide)
     (by decide) (by decide) (by decide) (by decide) (by decide) (by decide)
     (by decide) (by decide) (by decide) (by decide) (by decide)⟩

/-- Counterexample graph for C1 as literally stated: producer 1 feeds TWO
concats (4 and 5) which both get demoted to views. -/
def gC1ce : Graph :=
  { nodes :=
      [ ⟨Opcode.input_node, true, [], [[1]], [f32], 0⟩
      , ⟨Opcode.other, true, [⟨0, 0⟩], [[2]], [f32], 0⟩
      , ⟨Opcode.other, true, [⟨0, 0⟩], [[3]], [f32], 0⟩
      , ⟨Opcode.other, true, [⟨0, 0⟩], [[4]], [f32], 0⟩
      , ⟨Opcode.concat, true, [⟨1, 0⟩, ⟨2, 0⟩], [[5]], [f32], 0⟩
      , ⟨Opcode.concat, true, [⟨1, 0⟩, ⟨3, 0⟩], [[6]], [f32], 0⟩
      , ⟨Opcode.output_node, true, [⟨4, 0⟩, ⟨5, 0⟩], [], [], 0⟩ ]
    outputs := [6] }

def bufsC1ce : Buffers := (make_logical_buffers gC1ce).toOption.getD []

def stC1ce : AliasState := analyze_buffer_alias gC1ce bufsC1ce

/-- Claim C1 is false as stated: concat 4 is demoted to a view and is
itself the outermost view-concat of its chain (its output has no concat
consumer), so the claim requires its input connection (1,0) to carry a
parent descriptor naming (4,0); but after fix_concat_indices the buffer of
(1,0) names (5,0), the OTHER demoted concat consuming the same connection,
which ran later and overwrote the descriptor. -/
theorem claim_C1_counterexample :
    (gC1ce.node 4).opcode = Opcode.concat ∧
    effAction gC1ce stC1ce.cleared 4 = false ∧
    (⟨1, 0⟩ : OutRef) ∈ (gC1ce.node 4).inputs ∧
    try_get_concat_child gC1ce 4 = none ∧
    chainTop gC1ce stC1ce.cleared (gC1ce.nodes.length + 1) 4 = 4 ∧
    (bufFind (fix_concat_indices gC1ce stC1ce) ⟨1, 0⟩).map
      (fun b => b.parent.map ParentDesc.parent) = some (some ⟨5, 0⟩) ∧
    ((bufFind (fix_concat_indices gC1ce stC1ce) ⟨1, 0⟩).map
      (fun b => b.parent.map ParentDesc.parent) ≠ some (some ⟨4, 0⟩)) := by
  decide

end NncaseSchedule
